import Mathlib

/-!
# Verification of the fsst compression library (Go) against its specification

This file contains a shallow embedding of the core of the `fsst` Go package
(symbol representation, frequency counters, symbol table, trainer, encoder,
decoder, serialization) and settles a list of claims about it.

Modelling conventions, used uniformly below:

* Go fixed-width unsigned integers are modelled as `Nat` with explicit
  reductions modulo `2^w` at the operations where Go would wrap.
* Bit operations on values in bounded ranges are written arithmetically:
  `x & (2^k - 1)` is `x % 2^k`, `x >> k` is `x / 2^k`, `x << k` is
  `x * 2^k`, and an `or` of values occupying disjoint bit ranges is `+`.
  Comments at each definition record the Go expression being modelled.
* Go arrays are modelled as total functions `Nat → α` updated pointwise;
  the callers only ever read indices that the Go code reads.
* Loops are modelled by structural recursion; where the Go loop's progress
  depends on data (the encoder advances by the matched symbol's length) the
  recursion carries explicit fuel and returns `Option`, with `none` for the
  (unreachable) case of a non-advancing iteration exhausting the fuel.
-/

namespace FSST

/-- Pointwise update of a function-modelled array (`a[k] = v`). -/
def upd (f : Nat → Nat) (k v : Nat) : Nat → Nat :=
  fun i => if i = k then v else f i

/-- Constants from symbol.go. -/
def fsstLenBits : Nat := 12
def fsstCodeBase : Nat := 256
def fsstCodeMax : Nat := 512
def fsstCodeMask : Nat := 511
def fsstHashTabSize : Nat := 2048
def fsstHashPrime : Nat := 2971215073
def fsstShift : Nat := 15
/-- `fsstICLFree = (15 << 28) | (0x1FF << 16)`: marker for an unused hash slot. -/
def fsstICLFree : Nat := 15 * 2 ^ 28 + 511 * 2 ^ 16
def fsstEscapeCode : Nat := 255
def fsstMaxSymbols : Nat := 255
def fsstChunkSize : Nat := 511
def fsstSampleMask : Nat := 127

/-- `fsst_hash(w) = x ^ (x >> 15)` with `x = w * 2971215073` in `uint64`. -/
def fsstHash (w : Nat) : Nat :=
  let x := (w * fsstHashPrime) % 2 ^ 64
  x ^^^ (x >>> fsstShift)

/-- `packCodeLength(code, length) = uint16(code) | uint16(length<<12)`.
Every call site passes `code < 4096`, so the `or` of the disjoint bit
ranges is addition; `uint16(length<<12)` is `4096 * (length % 16)`. -/
def packCodeLength (code length : Nat) : Nat :=
  code % 4096 + 4096 * (length % 16)

/-- The symbol record: `val` is the symbol bytes little-endian (uint64),
`icl` the packed metadata `[length:4][code:12][ignoredBits:16]` (uint64). -/
structure symbol where
  val : Nat
  icl : Nat
deriving DecidableEq

/-- `newSymbolFromByte`: 1-byte symbol, `icl = (1<<28) | (code<<16) | 56`.
`newTable` passes packed `(length<<12)|code` values here whose shifted
bit 28 overlaps the length field, so this `or` is kept as a genuine `or`. -/
def newSymbolFromByte (b code : Nat) : symbol :=
  { val := b, icl := 2 ^ 28 ||| code * 2 ^ 16 ||| 56 }

/-- `setCodeLen`: `icl = (length<<28) | (code<<16) | (8-length)*8`.
All call sites pass `length ≤ 8` and `code ≤ 512`, so the bit ranges are
disjoint and the `or` is addition (`8 - length` is Go `uint32` arithmetic,
which agrees with truncated `Nat` subtraction for `length ≤ 8`). -/
def symbol.setCodeLen (s : symbol) (code length : Nat) : symbol :=
  { s with icl := length * 2 ^ 28 + code * 2 ^ 16 + (8 - length) * 8 }

/-- `length() = uint32(icl >> 28)`. -/
def symbol.length (s : symbol) : Nat := s.icl / 2 ^ 28 % 2 ^ 32

/-- `code() = uint16((icl >> 16) & 0x1FF)`. -/
def symbol.code (s : symbol) : Nat := s.icl / 2 ^ 16 % 512

/-- `ignoredBits() = uint32(icl & 0xFFFF)`. -/
def symbol.ignoredBits (s : symbol) : Nat := s.icl % 2 ^ 16

/-- `first() = byte(val & 0xFF)`. -/
def symbol.first (s : symbol) : Nat := s.val % 256

/-- `first2() = uint16(val & 0xFFFF)`. -/
def symbol.first2 (s : symbol) : Nat := s.val % 2 ^ 16

/-- `hash() = fsstHash(val & 0xFFFFFF)`. -/
def symbol.hash (s : symbol) : Nat := fsstHash (s.val % 2 ^ 24)

/-- `newSymbolFromBytes`: symbol from the first `min 8` bytes of a slice,
with the unassigned code sentinel `fsstCodeMax`. -/
def newSymbolFromBytes (bs : List Nat) : symbol :=
  let length := min bs.length 8
  let value := (List.range length).foldl (fun v i => v + bs.getD i 0 * 2 ^ (8 * i)) 0
  symbol.setCodeLen { val := value, icl := 0 } fsstCodeMax length

/-- `fsstConcat(a, b)`: `val = (b.val << 8*a.length) | a.val` (uint64),
length `min (a.length + b.length) 8`, code sentinel `fsstCodeMask`.
For symbols whose `val` fits in `a.length` bytes the shifted ranges are
disjoint, so the `or` is addition; the result is reduced mod `2^64`. -/
def fsstConcat (a b : symbol) : symbol :=
  let combinedLength := min (a.length + b.length) 8
  let combinedValue := (b.val * 2 ^ (8 * a.length) + a.val) % 2 ^ 64
  symbol.setCodeLen { val := combinedValue, icl := 0 } fsstCodeMask combinedLength

/-- The mask `^uint64(0) >> ignoredBits` applied by `&` equals reduction
modulo `2 ^ (64 - ignoredBits)` (and for `ignoredBits ≥ 64` the Go shift
yields mask 0, which `% 2 ^ 0 = % 1` also models). -/
def symMask (ignoredBits : Nat) : Nat := 2 ^ (64 - ignoredBits)

end FSST

namespace FSST

/-! ## Counters (training-time frequency counts, from the counters source file) -/

/-- Read a cell of a zero-initialized array modelled as an association list
(`0` when the key is absent). -/
def alGet (m : List (Nat × Nat)) (k : Nat) : Nat :=
  match m with
  | [] => 0
  | (k2, v) :: rest => if k2 = k then v else alGet rest k

/-- Write a cell of an association-list-modelled array (replace in place or
append). -/
def alSet (m : List (Nat × Nat)) (k v : Nat) : List (Nat × Nat) :=
  match m with
  | [] => [(k, v)]
  | (k2, v2) :: rest => if k2 = k then (k, v) :: rest else (k2, v2) :: alSet rest k v

lemma alGet_alSet_same (m : List (Nat × Nat)) (k v : Nat) :
    alGet (alSet m k v) k = v := by
  induction m with
  | nil => simp [alGet, alSet]
  | cons kv rest ih =>
    by_cases h : kv.1 = k <;> simp [alGet, alSet, h, ih]

lemma alGet_alSet_other (m : List (Nat × Nat)) (k v j : Nat) (hj : j ≠ k) :
    alGet (alSet m k v) j = alGet m j := by
  have hkj : k ≠ j := Ne.symm hj
  induction m with
  | nil => simp [alGet, alSet, hkj]
  | cons kv rest ih =>
    by_cases h : kv.1 = k
    · simp [alGet, alSet, h, hkj]
    · by_cases h2 : kv.1 = j <;> simp [alGet, alSet, h, h2, hj, hkj, ih]

/-- `counters`: single-symbol counts split into high/low bytes, pair counts
nibble-packed (high) plus a full low byte, and the sparse pair list. The Go
arrays are modelled as zero-initialized association lists; the
two-dimensional pair arrays are flattened row-major
(`pairLow[c1][c2]` at key `c1*512 + c2`, `pairHigh[c1][b]` at key
`c1*256 + b`). -/
structure counters where
  singleHigh : List (Nat × Nat)
  singleLow : List (Nat × Nat)
  pairHigh : List (Nat × Nat)
  pairLow : List (Nat × Nat)
  pairList : List (Nat × Nat)

/-- The zero value `counters{}`. -/
def counters.fresh : counters := { singleHigh := [], singleLow := [], pairHigh := [], pairLow := [], pairList := [] }

/-- `incSingle`: early-increment trick — on the 0→1 transition of the low
byte the high byte is incremented as well (all bytes wrap mod 256). -/
def counters.incSingle (c : counters) (symbolCode : Nat) : counters :=
  if alGet c.singleLow symbolCode = 0 then
    { c with singleLow := alSet c.singleLow symbolCode 1,
             singleHigh := alSet c.singleHigh symbolCode
               ((alGet c.singleHigh symbolCode + 1) % 256) }
  else
    { c with singleLow := alSet c.singleLow symbolCode
               ((alGet c.singleLow symbolCode + 1) % 256) }

/-- `incPair`: same mechanics on the nibble-packed high array
(`byteIndex = code2 >> 1`, `nibbleShift = (code2 & 1) << 2`), recording the
pair in `pairList` on the 0→nonzero transition. -/
def counters.incPair (c : counters) (code1 code2 : Nat) : counters :=
  if alGet c.pairLow (code1 * 512 + code2) = 0 then
    let byteIndex := code2 / 2
    let nibbleShift := code2 % 2 * 4
    { c with pairHigh := alSet c.pairHigh (code1 * 256 + byteIndex)
               ((alGet c.pairHigh (code1 * 256 + byteIndex) + 2 ^ nibbleShift) % 256),
             pairList := c.pairList ++ [(code1, code2)],
             pairLow := alSet c.pairLow (code1 * 512 + code2)
               ((alGet c.pairLow (code1 * 512 + code2) + 1) % 256) }
  else
    { c with pairLow := alSet c.pairLow (code1 * 512 + code2)
               ((alGet c.pairLow (code1 * 512 + code2) + 1) % 256) }

/-- The `nextSingle` scan, by structural recursion on the distance
`fsstCodeMax - symbolCode` (so that the definition evaluates by kernel
reduction); `gas = 0` is exactly the Go loop exit `symbolCode ≥ 512`. -/
def nextSingleGo (c : counters) : Nat → Nat → Nat × Nat
  | 0, symbolCode => (symbolCode, 0)
  | gas + 1, symbolCode =>
    let high := alGet c.singleHigh symbolCode
    let low := alGet c.singleLow symbolCode
    if high ≠ 0 ∨ low ≠ 0 then
      let highVal := if low ≠ 0 ∧ high > 0 then high - 1 else high
      (symbolCode, highVal * 256 + low)
    else
      nextSingleGo c gas (symbolCode + 1)

/-- `nextSingle`: advance the probe to the next code with a nonzero count and
return the compensated reading `(high - [low≠0 ∧ high>0]) * 256 + low`; the
Go function mutates the probe pointer, modelled here by returning the pair
`(new probe, count)`. -/
def counters.nextSingle (c : counters) (symbolCode : Nat) : Nat × Nat :=
  nextSingleGo c (fsstCodeMax - symbolCode) symbolCode

/-- The `nextPair` scan, by structural recursion on the remaining distance
(see `nextSingleGo`). -/
def nextPairGo (c : counters) (code1 : Nat) : Nat → Nat → Nat × Nat
  | 0, code2 => (code2, 0)
  | gas + 1, code2 =>
    let byteIndex := code2 / 2
    let nibbleShift := code2 % 2 * 4
    let highNibble := alGet c.pairHigh (code1 * 256 + byteIndex) / 2 ^ nibbleShift % 16
    let low := alGet c.pairLow (code1 * 512 + code2)
    if highNibble ≠ 0 ∨ low ≠ 0 then
      let highVal := if low ≠ 0 ∧ highNibble > 0 then highNibble - 1 else highNibble
      (code2, highVal * 256 + low)
    else
      nextPairGo c code1 gas (code2 + 1)

/-- `nextPair`: the pair-count analogue of `nextSingle`, reading the high
nibble at `(pairHigh[code1][code2>>1] >> nibbleShift) & 0xF`. -/
def counters.nextPair (c : counters) (code1 code2 : Nat) : Nat × Nat :=
  nextPairGo c code1 (fsstCodeMax - code2) code2

/-! ### Closed forms for iterated increments (claim C10) -/

/-- After `k ≥ 1` calls of `incSingle s` on fresh counters: the low byte at
`s` is `k % 256`, the high byte is `⌈k/256⌉ % 256` (early increment), and
all other cells are zero. -/
lemma incSingle_iterate_spec (s : Nat) : ∀ k, 1 ≤ k →
    (alGet ((fun cc => counters.incSingle cc s)^[k] counters.fresh).singleLow s = k % 256 ∧
     alGet ((fun cc => counters.incSingle cc s)^[k] counters.fresh).singleHigh s = (k + 255) / 256 % 256) ∧
    (∀ j, j ≠ s →
      alGet ((fun cc => counters.incSingle cc s)^[k] counters.fresh).singleLow j = 0 ∧
      alGet ((fun cc => counters.incSingle cc s)^[k] counters.fresh).singleHigh j = 0) := by
  intro k
  induction k with
  | zero => intro h; omega
  | succ k ih =>
    intro _
    rw [Function.iterate_succ_apply']
    rcases Nat.eq_zero_or_pos k with hk0 | hkpos
    · subst hk0
      simp only [Function.iterate_zero, id_eq]
      constructor
      · simp [counters.incSingle, counters.fresh, alGet, alSet]
      · intro j hj
        simp [counters.incSingle, counters.fresh, alGet, alSet, Ne.symm hj]
    · obtain ⟨⟨hlow, hhigh⟩, hrest⟩ := ih hkpos
      set c := (fun cc => counters.incSingle cc s)^[k] counters.fresh with hc
      constructor
      · by_cases h0 : k % 256 = 0 <;>
          simp [counters.incSingle, hlow, hhigh, h0, alGet_alSet_same] <;> omega
      · intro j hj
        obtain ⟨hl, hh⟩ := hrest j hj
        by_cases h0 : alGet c.singleLow s = 0 <;>
          simp [counters.incSingle, h0, alGet_alSet_other _ _ _ _ hj, hl, hh]

/-- After `k ≥ 1` calls of `incPair c1 c2` on fresh counters: the pair low
byte is `k % 256`, the packed byte holding the high nibble is
`(2^shift * ⌈k/256⌉) % 256`, and all other cells are zero. -/
lemma incPair_iterate_spec (c1 c2 : Nat) : ∀ k, 1 ≤ k →
    (alGet ((fun cc => counters.incPair cc c1 c2)^[k] counters.fresh).pairLow (c1 * 512 + c2) = k % 256 ∧
     alGet ((fun cc => counters.incPair cc c1 c2)^[k] counters.fresh).pairHigh (c1 * 256 + c2 / 2) =
       2 ^ (c2 % 2 * 4) * ((k + 255) / 256) % 256) ∧
    ((∀ key, key ≠ c1 * 512 + c2 →
       alGet ((fun cc => counters.incPair cc c1 c2)^[k] counters.fresh).pairLow key = 0) ∧
     (∀ key, key ≠ c1 * 256 + c2 / 2 →
       alGet ((fun cc => counters.incPair cc c1 c2)^[k] counters.fresh).pairHigh key = 0)) := by
  intro k
  induction k with
  | zero => intro h; omega
  | succ k ih =>
    intro _
    rw [Function.iterate_succ_apply']
    rcases Nat.eq_zero_or_pos k with hk0 | hkpos
    · subst hk0
      simp only [Function.iterate_zero, id_eq]
      refine ⟨⟨?_, ?_⟩, ?_, ?_⟩
      · simp [counters.incPair, counters.fresh, alGet, alSet]
      · rcases Nat.mod_two_eq_zero_or_one c2 with h2 | h2 <;>
          simp [counters.incPair, counters.fresh, alGet, alSet, h2]
      · intro key hk
        simp [counters.incPair, counters.fresh, alGet, alSet, Ne.symm hk]
      · intro key hk
        simp [counters.incPair, counters.fresh, alGet, alSet, Ne.symm hk]
    · obtain ⟨⟨hlow, hhigh⟩, hlz, hhz⟩ := ih hkpos
      set c := (fun cc => counters.incPair cc c1 c2)^[k] counters.fresh with hc
      refine ⟨⟨?_, ?_⟩, ?_, ?_⟩
      · by_cases h0 : k % 256 = 0 <;>
          simp [counters.incPair, hlow, h0, alGet_alSet_same] <;> omega
      · by_cases h0 : k % 256 = 0 <;>
          rcases Nat.mod_two_eq_zero_or_one c2 with h2 | h2 <;>
          simp [counters.incPair, hlow, hhigh, h0, h2, alGet_alSet_same] <;> omega
      · intro key hk
        by_cases h0 : alGet c.pairLow (c1 * 512 + c2) = 0 <;>
          simp [counters.incPair, h0, alGet_alSet_other _ _ _ _ hk, hlz key hk]
      · intro key hk
        by_cases h0 : alGet c.pairLow (c1 * 512 + c2) = 0 <;>
          simp [counters.incPair, h0, alGet_alSet_other _ _ _ _ hk, hhz key hk]

/-- One skipping step of the `nextSingle` scan over a zero cell. -/
lemma nextSingle_step (c : counters) (p : Nat) (hp : p < fsstCodeMax)
    (hh : alGet c.singleHigh p = 0) (hl : alGet c.singleLow p = 0) :
    c.nextSingle p = c.nextSingle (p + 1) := by
  unfold counters.nextSingle
  have hgas : fsstCodeMax - p = (fsstCodeMax - (p + 1)) + 1 := by omega
  rw [hgas, nextSingleGo]
  simp [hh, hl]

/-- The `nextSingle` scan stops at a nonzero cell with the compensated
reading. -/
lemma nextSingle_hit (c : counters) (p : Nat) (hp : p < fsstCodeMax)
    (hnz : alGet c.singleHigh p ≠ 0 ∨ alGet c.singleLow p ≠ 0) :
    c.nextSingle p = (p,
      (if alGet c.singleLow p ≠ 0 ∧ alGet c.singleHigh p > 0 then alGet c.singleHigh p - 1
       else alGet c.singleHigh p) * 256 + alGet c.singleLow p) := by
  unfold counters.nextSingle
  have hgas : fsstCodeMax - p = (fsstCodeMax - (p + 1)) + 1 := by omega
  rw [hgas, nextSingleGo]
  simp only [if_pos hnz]

/-- The `nextSingle` scan skips cells whose high and low bytes are zero. -/
lemma nextSingle_skip (c : counters) :
    ∀ d p, (∀ j, p ≤ j → j < p + d → alGet c.singleHigh j = 0 ∧ alGet c.singleLow j = 0) →
      p + d < fsstCodeMax →
      c.nextSingle p = c.nextSingle (p + d) := by
  intro d
  induction d with
  | zero => intro p _ _; rfl
  | succ d ih =>
    intro p hz hlt
    have h0 := hz p le_rfl (by omega)
    rw [nextSingle_step c p (by omega) h0.1 h0.2]
    have heq := ih (p + 1) (fun j h1 h2 => hz j (by omega) (by omega)) (by omega)
    rw [heq]
    congr 1
    omega

/-- One skipping step of the `nextPair` scan over a zero cell. -/
lemma nextPair_step (c : counters) (c1 p : Nat) (hp : p < fsstCodeMax)
    (hh : alGet c.pairHigh (c1 * 256 + p / 2) / 2 ^ (p % 2 * 4) % 16 = 0)
    (hl : alGet c.pairLow (c1 * 512 + p) = 0) :
    c.nextPair c1 p = c.nextPair c1 (p + 1) := by
  unfold counters.nextPair
  have hgas : fsstCodeMax - p = (fsstCodeMax - (p + 1)) + 1 := by omega
  rw [hgas, nextPairGo]
  simp [hh, hl]

/-- The `nextPair` scan stops at a nonzero cell with the compensated
reading. -/
lemma nextPair_hit (c : counters) (c1 p : Nat) (hp : p < fsstCodeMax)
    (hnz : alGet c.pairHigh (c1 * 256 + p / 2) / 2 ^ (p % 2 * 4) % 16 ≠ 0 ∨
      alGet c.pairLow (c1 * 512 + p) ≠ 0) :
    c.nextPair c1 p = (p,
      (if alGet c.pairLow (c1 * 512 + p) ≠ 0 ∧
          alGet c.pairHigh (c1 * 256 + p / 2) / 2 ^ (p % 2 * 4) % 16 > 0
       then alGet c.pairHigh (c1 * 256 + p / 2) / 2 ^ (p % 2 * 4) % 16 - 1
       else alGet c.pairHigh (c1 * 256 + p / 2) / 2 ^ (p % 2 * 4) % 16) * 256 +
        alGet c.pairLow (c1 * 512 + p)) := by
  unfold counters.nextPair
  have hgas : fsstCodeMax - p = (fsstCodeMax - (p + 1)) + 1 := by omega
  rw [hgas, nextPairGo]
  simp only [if_pos hnz]

/-- The `nextPair` scan skips cells whose high nibble and low byte are zero. -/
lemma nextPair_skip (c : counters) (c1 : Nat) :
    ∀ d p, (∀ j, p ≤ j → j < p + d →
        alGet c.pairHigh (c1 * 256 + j / 2) / 2 ^ (j % 2 * 4) % 16 = 0 ∧
        alGet c.pairLow (c1 * 512 + j) = 0) →
      p + d < fsstCodeMax →
      c.nextPair c1 p = c.nextPair c1 (p + d) := by
  intro d
  induction d with
  | zero => intro p _ _; rfl
  | succ d ih =>
    intro p hz hlt
    have h0 := hz p le_rfl (by omega)
    rw [nextPair_step c c1 p (by omega) h0.1 h0.2]
    have heq := ih (p + 1) (fun j h1 h2 => hz j (by omega) (by omega)) (by omega)
    rw [heq]
    congr 1
    omega

/-- Reading back `k ≥ 1` iterated `incSingle s` increments from probe 0:
the probe lands on `s` and the compensated count is computed from
`low = k % 256` and `high = ⌈k/256⌉ % 256`. -/
lemma nextSingle_read (s k : Nat) (hs : s < fsstCodeMax) (hk : 1 ≤ k)
    (hnz : k % 65536 ≠ 0) :
    ((fun cc => counters.incSingle cc s)^[k] counters.fresh).nextSingle 0 =
      (s, (if k % 256 ≠ 0 ∧ (k + 255) / 256 % 256 > 0
           then (k + 255) / 256 % 256 - 1 else (k + 255) / 256 % 256) * 256 + k % 256) := by
  obtain ⟨⟨hlow, hhigh⟩, hz⟩ := incSingle_iterate_spec s k hk
  set c := (fun cc => counters.incSingle cc s)^[k] counters.fresh with hc
  have hskip := nextSingle_skip c s 0
    (fun j h1 h2 => ⟨(hz j (by omega)).2, (hz j (by omega)).1⟩) (by omega)
  rw [zero_add] at hskip
  rw [hskip, nextSingle_hit c s hs (by rw [hlow, hhigh]; omega), hlow, hhigh]

/-- Reading back `k ≥ 1` iterated `incPair c1 c2` increments from probe 0:
the probe lands on `c2`; the high nibble reads as `⌈k/256⌉ % 16`. -/
lemma nextPair_read (c1 c2 k : Nat) (hc2 : c2 < fsstCodeMax) (hk : 1 ≤ k)
    (hnz : k % 4096 ≠ 0) :
    ((fun cc => counters.incPair cc c1 c2)^[k] counters.fresh).nextPair c1 0 =
      (c2, (if k % 256 ≠ 0 ∧ (k + 255) / 256 % 16 > 0
            then (k + 255) / 256 % 16 - 1 else (k + 255) / 256 % 16) * 256 + k % 256) := by
  obtain ⟨⟨hlow, hhigh⟩, hlz, hhz⟩ := incPair_iterate_spec c1 c2 k hk
  set c := (fun cc => counters.incPair cc c1 c2)^[k] counters.fresh with hc
  have hnib : alGet c.pairHigh (c1 * 256 + c2 / 2) / 2 ^ (c2 % 2 * 4) % 16 =
      (k + 255) / 256 % 16 := by
    rcases Nat.mod_two_eq_zero_or_one c2 with h2 | h2 <;> rw [hhigh, h2] <;> omega
  have hskip := nextPair_skip c c1 c2 0
    (fun j h1 h2 => by
      have hj : j ≠ c2 := by omega
      constructor
      · by_cases hb : j / 2 = c2 / 2
        · have hj2 : j % 2 = 0 ∧ c2 % 2 = 1 := by omega
          rw [hb, hhigh, hj2.1, hj2.2]
          omega
        · rw [hhz (c1 * 256 + j / 2) (by omega)]
          simp
      · exact hlz (c1 * 512 + j) (by omega))
    (by omega)
  rw [zero_add] at hskip
  rw [hskip, nextPair_hit c c1 c2 hc2 (by rw [hnib, hlow]; omega), hnib, hlow]

/-- C10 (amended): the early-increment counters read back exact counts in the
ranges the carry bytes can represent: `incSingle` applied `k` times followed
by `nextSingle` returns exactly `k` for `1 ≤ k ≤ 65280`, and `incPair`
applied `k` times followed by `nextPair` returns exactly `k` for
`1 ≤ k ≤ 3840`. -/
theorem C10_counters_roundtrip :
    (∀ s k, s < fsstCodeMax → 1 ≤ k → k ≤ 65280 →
      ((fun cc => counters.incSingle cc s)^[k] counters.fresh).nextSingle 0 = (s, k)) ∧
    (∀ c1 c2 k, c2 < fsstCodeMax → 1 ≤ k → k ≤ 3840 →
      ((fun cc => counters.incPair cc c1 c2)^[k] counters.fresh).nextPair c1 0 = (c2, k)) := by
  constructor
  · intro s k hs h1 h2
    rw [nextSingle_read s k hs h1 (by omega)]
    simp only [Prod.mk.injEq]
    exact ⟨trivial, by split <;> omega⟩
  · intro c1 c2 k hc2 h1 h2
    rw [nextPair_read c1 c2 k hc2 h1 (by omega)]
    simp only [Prod.mk.injEq]
    exact ⟨trivial, by split <;> omega⟩

/-- C10 (counterexample): the claimed ranges `k ≤ 65535` (singles) and
`k ≤ 4095` (pairs) are too large — at `k = 65281` the single-count high
byte has wrapped (256 early increments) and the read returns 1, and at
`k = 3841` the pair-count high nibble has wrapped (16 early increments)
and the read returns 1, also corrupting the neighbouring nibble. -/
theorem C10_counters_overflow :
    ((fun cc => counters.incSingle cc 5)^[65281] counters.fresh).nextSingle 0 ≠ (5, 65281) ∧
    ((fun cc => counters.incPair cc 3 4)^[3841] counters.fresh).nextPair 3 0 ≠ (4, 3841) := by
  constructor
  · rw [nextSingle_read 5 65281 (by decide) (by omega) (by omega)]
    decide
  · rw [nextPair_read 3 4 3841 (by decide) (by omega) (by omega)]
    decide

/-- Witness for `C10_counters_roundtrip` at concrete inputs: three
`incSingle 5` increments read back as 3 and two `incPair 3 4` increments
read back as 2. -/
theorem C10_counters_roundtrip_witness :
    ((fun cc => counters.incSingle cc 5)^[3] counters.fresh).nextSingle 0 = (5, 3) ∧
    ((fun cc => counters.incPair cc 3 4)^[2] counters.fresh).nextPair 3 0 = (4, 2) :=
  ⟨C10_counters_roundtrip.1 5 3 (by decide) (by decide) (by decide),
   C10_counters_roundtrip.2 3 4 2 (by decide) (by decide) (by decide)⟩

end FSST

namespace FSST

/-! ## Symbol table (table.go) -/

/-- Pointwise update of a symbol-valued function-modelled array. -/
def updS (f : Nat → symbol) (k : Nat) (v : symbol) : Nat → symbol :=
  fun i => if i = k then v else f i

/-- Apply `f 0`, `f 1`, …, `f (n-1)` in ascending index order
(a counted `for` loop over an accumulator). -/
def applyN {α : Type} (f : Nat → α → α) : Nat → α → α
  | 0, a => a
  | n + 1, a => f n (applyN f n a)

/-- The symbol table. Lazily initialized Go fields (`accelReady`,
`noSuffixOpt`, `avoidBranch`, `encBuf`, `decLen`, `decSymbol`, `decReady`)
are not stored: the encoder model recomputes `rebuildIndices`/`chooseVariant`
(the first-call path) and threads the scratch chunk buffer explicitly, and
the decoder model recomputes its flat arrays (the first-call path). -/
structure Table where
  shortCodes : Nat → Nat
  byteCodes : Nat → Nat
  symbols : Nat → symbol
  hashTab : Nat → symbol
  nSymbols : Nat
  suffixLim : Nat
  lenHisto : Nat → Nat

/-- `newTable()`: pseudo symbols 0–255, unused markers above, free hash
slots, and byte/short codes mapping to the escaped first byte. -/
def newTable : Table where
  shortCodes := fun i => packCodeLength (i % 256) 1
  byteCodes := fun i => packCodeLength i 1
  symbols := fun i =>
    if i < 256 then newSymbolFromByte i (packCodeLength i 1)
    else newSymbolFromByte 0 fsstCodeMask
  hashTab := fun _ => { val := 0, icl := fsstICLFree }
  nSymbols := 0
  suffixLim := 0
  lenHisto := fun _ => 0

/-- `hashInsert` on the hash array alone: install the symbol at
`hash & (H-1)` with the masked value unless the slot is occupied. -/
def hashInsertF (h : Nat → symbol) (sym : symbol) : Nat → symbol :=
  let hashIndex := sym.hash % fsstHashTabSize
  if (h hashIndex).icl < fsstICLFree then h
  else updS h hashIndex { val := sym.val % symMask sym.ignoredBits, icl := sym.icl }

/-- `Table.hashInsert`: returns whether the insertion happened plus the
updated table (the Go method mutates the receiver). -/
def Table.hashInsert (t : Table) (sym : symbol) : Bool × Table :=
  let hashIndex := sym.hash % fsstHashTabSize
  if (t.hashTab hashIndex).icl < fsstICLFree then (false, t)
  else (true, { t with hashTab := hashInsertF t.hashTab sym })

/-- `Table.addSymbol`: stamp the next code into the symbol, install it in
the lookup structure matching its length, append it to `symbols`, and
update `nSymbols`/`lenHisto` (all counts are `uint16`). -/
def Table.addSymbol (t : Table) (sym : symbol) : Bool × Table :=
  if fsstCodeBase + t.nSymbols ≥ fsstCodeMax then (false, t)
  else
    let length := sym.length
    let sym2 := sym.setCodeLen (fsstCodeBase + t.nSymbols) length
    let finish : Table → Table := fun tm =>
      { tm with symbols := updS tm.symbols (fsstCodeBase + t.nSymbols) sym2,
                nSymbols := (t.nSymbols + 1) % 65536,
                lenHisto := upd t.lenHisto (length - 1)
                  ((t.lenHisto (length - 1) + 1) % 65536) }
    if length = 1 then
      (true, finish { t with byteCodes := upd t.byteCodes sym2.first (packCodeLength (fsstCodeBase + t.nSymbols) 1) })
    else if length = 2 then
      (true, finish { t with shortCodes := upd t.shortCodes sym2.first2 (packCodeLength (fsstCodeBase + t.nSymbols) 2) })
    else
      match t.hashInsert sym2 with
      | (false, _) => (false, t)
      | (true, t2) => (true, finish t2)

/-- `Table.clearSymbols`: reset `lenHisto`, restore the lookup entry of each
learned symbol to its default, and zero `nSymbols`. -/
def Table.clearSymbols (t : Table) : Table :=
  let t1 := { t with lenHisto := fun _ => 0 }
  let t2 := applyN (fun i acc =>
    let s := acc.symbols (fsstCodeBase + i)
    if s.length = 1 then
      { acc with byteCodes := upd acc.byteCodes s.first (packCodeLength s.first 1) }
    else if s.length = 2 then
      { acc with shortCodes := upd acc.shortCodes s.first2 (packCodeLength (s.first2 % 256) 1) }
    else
      { acc with hashTab := updS acc.hashTab (s.hash % fsstHashTabSize)
                   { val := 0, icl := fsstICLFree } }) t.nSymbols t1
  { t2 with nSymbols := 0 }

/-- `Table.findLongestSymbol`: hash probe (entry no longer than the window
and matching under the entry's mask), then learned short code, then byte
code. -/
def Table.findLongestSymbol (t : Table) (sym : symbol) : Nat :=
  let hashEntry := t.hashTab (sym.hash % fsstHashTabSize)
  if hashEntry.icl ≤ sym.icl ∧ hashEntry.val = sym.val % symMask hashEntry.ignoredBits then
    hashEntry.code % 512
  else if 2 ≤ sym.length ∧ fsstCodeBase ≤ t.shortCodes sym.first2 % 512 then
    t.shortCodes sym.first2 % 512
  else
    t.byteCodes sym.first % 512

end FSST

namespace FSST

/-- State threaded through the `finalize` code-assignment loop: the evolving
symbol array, the two-byte counters (`t.suffixLim` and the conflicting-code
down-counter) and the per-length-group `codeStart` array (`uint8` cells). -/
structure FinState where
  syms : Nat → symbol
  sufLim : Nat
  conflicting : Nat
  codeStart : Nat → Nat

/-- Whether learned symbol `i` (2-byte) shares its two-byte prefix with
another learned symbol of length > 1 (the inner scan of `finalize`). -/
def hasConflictAt (syms : Nat → symbol) (n i : Nat) (first2 : Nat) : Bool :=
  decide (∃ k < n, k ≠ i ∧ 1 < (syms (fsstCodeBase + k)).length ∧
    (syms (fsstCodeBase + k)).first2 = first2)

/-- One iteration of the `finalize` assignment loop for learned symbol `i`.
`newCode` values are `uint8` (`% 256`); the conflicting counter decrement
uses truncated subtraction (the Go `int` never goes negative when
`lenHisto` is consistent with the symbols). -/
def finalizeStep (n : Nat) (i : Nat) (st : FinState) : FinState :=
  let sym := st.syms (fsstCodeBase + i)
  let length := sym.length
  if length = 2 then
    if hasConflictAt st.syms n i sym.first2 then
      let newCode := (st.conflicting - 1) % 256
      { st with conflicting := st.conflicting - 1,
                syms := updS st.syms newCode (sym.setCodeLen newCode length) }
    else
      let newCode := st.sufLim % 256
      { st with sufLim := st.sufLim + 1,
                syms := updS st.syms newCode (sym.setCodeLen newCode length) }
  else
    let li := length - 1
    let newCode := st.codeStart li
    { st with codeStart := upd st.codeStart li ((st.codeStart li + 1) % 256),
              syms := updS st.syms newCode (sym.setCodeLen newCode length) }

/-- `Table.finalize`: reassign the learned codes into the three contiguous
ranges (unique-prefix 2-byte, conflicting 2-byte and 3–8 byte groups,
1-byte), overwriting `symbols[newCode]` with the restamped symbols.
`byteLim = uint8(nSymbols) - uint8(lenHisto[0])` with `uint8` wrap-around. -/
def Table.finalize (t : Table) : Table :=
  let byteLim := (t.nSymbols % 256 + 256 - t.lenHisto 0 % 256) % 256
  let codeStart0 : Nat → Nat := upd (upd (fun _ => 0) 0 byteLim) 1 0
  let codeStart := applyN (fun k cs =>
    upd cs (k + 2) ((cs (k + 1) + t.lenHisto (k + 1) % 256) % 256)) 6 codeStart0
  let symsPre := updS t.symbols 0 (t.symbols 256)
  let st0 : FinState :=
    { syms := symsPre, sufLim := codeStart 1, conflicting := codeStart 2,
      codeStart := codeStart }
  let st := applyN (finalizeStep t.nSymbols) t.nSymbols st0
  { t with symbols := st.syms, suffixLim := st.sufLim }

/-- `Table.rebuildIndices`: reconstruct `byteCodes`, `shortCodes` and
`hashTab` from the finalized `symbols[0..nSymbols)`. -/
def Table.rebuildIndices (t : Table) : Table :=
  let bc := applyN (fun i f =>
    if (t.symbols i).length = 1 then
      upd f (t.symbols i).first (packCodeLength i 1)
    else f) t.nSymbols (fun _ => packCodeLength fsstCodeMask 1)
  let sc := applyN (fun i f =>
    if (t.symbols i).length = 2 then
      upd f (t.symbols i).first2 (packCodeLength i 2)
    else f) t.nSymbols (fun w => bc (w % 256))
  let ht := applyN (fun i f =>
    if 3 ≤ (t.symbols i).length then hashInsertF f (t.symbols i)
    else f) t.nSymbols (fun _ => { val := 0, icl := fsstICLFree })
  { t with byteCodes := bc, shortCodes := sc, hashTab := ht }

/-- `chooseVariant`: select `(noSuffixOpt, avoidBranch)` from the
length-histogram statistics. -/
def chooseVariant (t : Table) : Bool × Bool :=
  if 100 * t.lenHisto 1 > 65 * t.nSymbols ∧ 100 * t.suffixLim > 95 * t.lenHisto 1 then
    (true, false)
  else if (24 < t.lenHisto 0 ∧ t.lenHisto 0 < 92) ∧
      (t.lenHisto 0 < 43 ∨ t.lenHisto 6 + t.lenHisto 7 < 29) ∧
      (t.lenHisto 0 < 72 ∨ t.lenHisto 2 < 72) then
    (false, true)
  else (false, false)

/-- `fsstUnalignedLoad`: little-endian 8-byte load from the chunk buffer. -/
def load64 (buf : Nat → Nat) (pos : Nat) : Nat :=
  buf pos + 256 * (buf (pos + 1) + 256 * (buf (pos + 2) + 256 * (buf (pos + 3) +
    256 * (buf (pos + 4) + 256 * (buf (pos + 5) + 256 * (buf (pos + 6) +
    256 * buf (pos + 7)))))))

/-- The `encodeChunk` loop. One fuel unit per iteration; every iteration of
the Go loop advances `position` by at least 1 for tables produced by
`rebuildIndices`, so fuel `endp` is enough (`none` is the unreachable
fuel-exhaustion case). `code & fsstCodeBase ≠ 0` is the bit-8 test
`code / 256 % 2 = 1`, and `code >> fsstLenBits` is `code / 4096`. -/
def encodeChunkGo (sc : Nat → Nat) (ht : Nat → symbol) (sufLim byteLim : Nat)
    (noSuffixOpt avoidBranch : Bool) (buf : Nat → Nat) (endp : Nat) :
    Nat → Nat → List Nat → Option (List Nat)
  | 0, pos, dst => if pos < endp then none else some dst
  | fuel + 1, pos, dst =>
    if pos < endp then
      let word := load64 buf pos
      let code := sc (word % 65536)
      if noSuffixOpt ∧ code % 256 < sufLim % 256 then
        encodeChunkGo sc ht sufLim byteLim noSuffixOpt avoidBranch buf endp fuel
          (pos + 2) (dst ++ [code % 256])
      else
        let hashSymbol := ht (fsstHash (word % 2 ^ 24) % fsstHashTabSize)
        let escapeByte := word % 256
        let maskedWord := word % symMask hashSymbol.ignoredBits
        if hashSymbol.icl < fsstICLFree ∧ hashSymbol.val = maskedWord then
          encodeChunkGo sc ht sufLim byteLim noSuffixOpt avoidBranch buf endp fuel
            (pos + hashSymbol.length) (dst ++ [hashSymbol.code % 256])
        else if avoidBranch then
          encodeChunkGo sc ht sufLim byteLim noSuffixOpt avoidBranch buf endp fuel
            (pos + code / 4096)
            (dst ++ [code % 256] ++ if code / 256 % 2 = 1 then [escapeByte] else [])
        else if code % 256 < byteLim then
          encodeChunkGo sc ht sufLim byteLim noSuffixOpt avoidBranch buf endp fuel
            (pos + 2) (dst ++ [code % 256])
        else
          encodeChunkGo sc ht sufLim byteLim noSuffixOpt avoidBranch buf endp fuel
            (pos + 1)
            (dst ++ [code % 256] ++ if code / 256 % 2 = 1 then [escapeByte] else [])
    else some dst

/-- `copy(buf[:chunk], input…); buf[chunk] = 0`: the scratch buffer after
loading a chunk — bytes beyond index `chunk` keep their previous contents. -/
def writeChunk (buf : Nat → Nat) (chunkBytes : List Nat) : Nat → Nat :=
  fun j =>
    if j < chunkBytes.length then chunkBytes.getD j 0
    else if j = chunkBytes.length then 0
    else buf j

/-- The chunking loop of `Encode`: split the input into 511-byte chunks,
load each into the scratch buffer, and run `encodeChunkGo`, threading the
output slice and the scratch buffer. -/
def encodeChunksGo (sc : Nat → Nat) (ht : Nat → symbol) (sufLim byteLim : Nat)
    (noSuffixOpt avoidBranch : Bool) :
    Nat → (Nat → Nat) → List Nat → List Nat → Option (List Nat × (Nat → Nat))
  | _, buf, dst, [] => some (dst, buf)
  | 0, _, _, _ :: _ => none
  | gas + 1, buf, dst, x :: rest =>
    let chunk := min (x :: rest).length fsstChunkSize
    let buf2 := writeChunk buf ((x :: rest).take chunk)
    match encodeChunkGo sc ht sufLim byteLim noSuffixOpt avoidBranch buf2 chunk
        chunk 0 dst with
    | none => none
    | some dst2 =>
      encodeChunksGo sc ht sufLim byteLim noSuffixOpt avoidBranch gas buf2 dst2
        ((x :: rest).drop chunk)

end FSST

namespace FSST

/-- `Table.Encode` with an explicit scratch chunk buffer: models a call on a
table whose encoder caches are unpopulated (`encBuf == nil` forces
`rebuildIndices` and `chooseVariant`) but whose 520-byte scratch buffer
starts with the given contents; returns the output and the buffer left
behind for the next call. `byteLim = uint8(nSymbols) - uint8(lenHisto[0])`. -/
def Table.EncodeWith (t : Table) (buf0 : Nat → Nat) (input : List Nat) :
    Option (List Nat × (Nat → Nat)) :=
  let tr := t.rebuildIndices
  let nsav := chooseVariant tr
  let byteLim := (t.nSymbols % 256 + 256 - t.lenHisto 0 % 256) % 256
  encodeChunksGo tr.shortCodes tr.hashTab tr.suffixLim byteLim nsav.1 nsav.2
    input.length buf0 [] input

/-- `Table.Encode` on the first call after training or deserialization: the
fresh scratch buffer is zero-filled (`make([]byte, …)`). -/
def Table.Encode (t : Table) (input : List Nat) : Option (List Nat) :=
  (t.EncodeWith (fun _ => 0) input).map Prod.fst

/-- The `Decode` main loop over flat arrays `decLen`/`decSymbol`: a code
below the escape code emits that symbol's bytes; the escape code emits the
following literal byte, or stops if the input ends. -/
def decodeCore (decLen decSymbol : Nat → Nat) : List Nat → List Nat
  | [] => []
  | code :: rest =>
    if code < fsstEscapeCode then
      (List.range (decLen code)).map (fun i => decSymbol code / 2 ^ (8 * i) % 256) ++
        decodeCore decLen decSymbol rest
    else
      match rest with
      | [] => []
      | lit :: rest2 => lit :: decodeCore decLen decSymbol rest2

/-- `Table.Decode`: build the flat decoder arrays from
`symbols[0..nSymbols)` (the lazy first-call initialization; entries above
`nSymbols` stay zero) and run the main loop. The `decLen`/`decSymbol`
arrays have 255 entries, so the initialization loop writes out of bounds —
a Go panic, modelled as `none` — iff `nSymbols > 255`. -/
def Table.Decode (t : Table) (src : List Nat) : Option (List Nat) :=
  if t.nSymbols ≤ 255 then
    some (decodeCore
      (fun c => if c < t.nSymbols then (t.symbols c).length else 0)
      (fun c => if c < t.nSymbols then (t.symbols c).val else 0) src)
  else none

/-- Little-endian byte serialization of `v` on `n` bytes. -/
def toLEBytes (n v : Nat) : List Nat :=
  (List.range n).map (fun i => v / 2 ^ (8 * i) % 256)

/-- Little-endian deserialization of a byte list. -/
def fromLEBytes (bs : List Nat) : Nat :=
  bs.foldr (fun b acc => acc * 256 + b) 0

/-- The length histogram `WriteTo` derives from the stored symbols
(`uint16` counts of lengths 1–8 over codes `[0, nSymbols)`). -/
def derivedHisto (t : Table) : Nat → Nat :=
  applyN (fun i h =>
    let l := (t.symbols i).length
    if 1 ≤ l ∧ l ≤ 8 then upd h (l - 1) ((h (l - 1) + 1) % 65536) else h)
    t.nSymbols (fun _ => 0)

/-- `Table.WriteTo` as the produced byte list: the packed 8-byte header
`(version<<32)|(suffixLim<<16)|(nSymbols<<8)|1` (the shifted fields are
disjoint for `suffixLim, nSymbols ≤ 255`, so the `or` is addition), the
8 derived histogram bytes, then each symbol's `length` value bytes in code
order. -/
def Table.writeTo (t : Table) : List Nat :=
  let ver := 20190218 * 2 ^ 32 + t.suffixLim * 2 ^ 16 + t.nSymbols * 2 ^ 8 + 1
  let hist := derivedHisto t
  toLEBytes 8 ver ++ (List.range 8).map (fun i => hist i % 256) ++
    ((List.range t.nSymbols).map
      (fun i => toLEBytes (t.symbols i).length (t.symbols i).val)).flatten

/-- The symbol-reading loop of `ReadFrom`: consume `length` bytes per entry
of the length schedule, stamping code `i` into symbol `i`; a short read is
an I/O error (`none`). -/
def readSymbols : List Nat → List Nat → Nat → (Nat → symbol) →
    Option (Nat → symbol)
  | _, [], _, syms => some syms
  | bytes, l :: ls, i, syms =>
    if bytes.length < l then none
    else
      readSymbols (bytes.drop l) ls (i + 1)
        (updS syms i (symbol.setCodeLen { val := fromLEBytes (bytes.take l), icl := 0 } i l))

/-- `Table.ReadFrom` from a byte list: reset to `newTable`, parse the
header (rejecting a version mismatch), read the 8 histogram bytes, rebuild
the per-code length schedule (lengths 2–8 in order, then 1), and read the
symbol bytes. Short reads are `none`; a schedule longer than `nSymbols`
would index the Go `lens` slice out of bounds (panic), also `none`. -/
def readFrom (data : List Nat) : Option Table :=
  if data.length < 8 then none
  else
    let ver := fromLEBytes (data.take 8)
    if ver / 2 ^ 32 ≠ 20190218 then none
    else
      let sufLim := ver / 2 ^ 16 % 256
      let nSym := ver / 2 ^ 8 % 256
      let rest := data.drop 8
      if rest.length < 8 then none
      else
        let lh := fun i => rest.getD i 0
        let sched := ((List.range 7).map
          (fun j => List.replicate (lh (j + 1)) (j + 2))).flatten
        if nSym < sched.length + lh 0 then none
        else
          let lens := sched ++ List.replicate (lh 0) 1 ++
            List.replicate (nSym - sched.length - lh 0) 0
          match readSymbols (rest.drop 8) lens 0 newTable.symbols with
          | none => none
          | some syms =>
            some { newTable with
                    suffixLim := sufLim, nSymbols := nSym,
                    lenHisto := fun i => if i < 8 then lh i else 0,
                    symbols := syms }

end FSST

namespace FSST

/-! ## Trainer (train.go) -/

instance : Inhabited symbol := ⟨⟨0, 0⟩⟩

/-- A scored candidate (`qsym`). -/
structure qsym where
  symbol : symbol
  gain : Nat
deriving DecidableEq

instance : Inhabited qsym := ⟨⟨default, 0⟩⟩

/-- Indexed read on a list-modelled Go slice. -/
def lget (h : List qsym) (i : Nat) : qsym := h.getD i default

/-- `qsymHeap.Less(i, j)`: ascending gain, ties broken by larger value. -/
def heapLess (a b : qsym) : Bool :=
  if a.gain ≠ b.gain then a.gain < b.gain else b.symbol.val < a.symbol.val

/-- `container/heap` sift-up (`up(j)`), by structural recursion on a gas
bound for the strictly decreasing index `j` (gas `j` suffices; at gas 0 the
index is 0 and the Go parent index `(j-1)/2 = 0` stops the loop — int
division of -1 truncates to 0, matching `Nat` subtraction). -/
def heapUpGo (h : List qsym) : Nat → Nat → List qsym
  | 0, _ => h
  | gas + 1, j =>
    let i := (j - 1) / 2
    if i = j ∨ ¬ heapLess (lget h j) (lget h i) then h
    else heapUpGo ((h.set i (lget h j)).set j (lget h i)) gas i

/-- `up(j)` entry point. -/
def heapUp (h : List qsym) (j : Nat) : List qsym := heapUpGo h j j

/-- `container/heap` sift-down (`down(i0, n)`, return value unused), by
structural recursion on gas `n - i` (the index `i` strictly increases and
stays below `n`; at gas 0 the child index `2i+1 ≥ n` stops the loop). -/
def heapDownGo (n : Nat) : List qsym → Nat → Nat → List qsym
  | h, 0, _ => h
  | h, gas + 1, i =>
    let j1 := 2 * i + 1
    if j1 ≥ n then h
    else
      let j := if j1 + 1 < n ∧ heapLess (lget h (j1 + 1)) (lget h j1) then j1 + 1 else j1
      if ¬ heapLess (lget h j) (lget h i) then h
      else heapDownGo n ((h.set i (lget h j)).set j (lget h i)) gas j

/-- `down(i, n)` entry point. -/
def heapDown (h : List qsym) (i n : Nat) : List qsym := heapDownGo n h (n - i) i

/-- `heap.Init`: sift-down from `n/2 - 1` down to 0 (no-op on an empty
heap). -/
def heapInit (h : List qsym) : List qsym :=
  let n := h.length
  applyN (fun k acc => heapDown acc (n / 2 - 1 - k) n) (n / 2) h

/-- `heap.Push`: append, then sift-up from the last index. -/
def heapPush (h : List qsym) (x : qsym) : List qsym :=
  heapUp (h ++ [x]) h.length

/-- `heap.Pop`: swap the root with the last element, sift-down over the
shortened prefix, remove and return the last element. -/
def heapPop (h : List qsym) : qsym × List qsym :=
  let n := h.length - 1
  let h2 := (h.set 0 (lget h n)).set n (lget h 0)
  let h3 := heapDown h2 0 n
  (lget h3 n, h3.take n)

/-- Top-`fsstMaxSymbols` selection of `buildCandidates`: fill a min-heap,
replace the minimum by better candidates (tiebreak: smaller value wins),
then pop everything into a slice from the back and reverse it. -/
def selectTopK (items : List qsym) : List qsym :=
  let h0 := heapInit []
  let h := items.foldl (fun h cand =>
    if h.length < fsstMaxSymbols then heapPush h cand
    else if (lget h 0).gain < cand.gain ∨
        ((lget h 0).gain = cand.gain ∧ cand.symbol.val < (lget h 0).symbol.val) then
      heapPush (heapPop h).2 cand
    else h) h0
  let popped := applyN (fun _ (acc : List qsym × List qsym) =>
    let (x, hh) := heapPop acc.2
    (x :: acc.1, hh)) h.length ([], h)
  popped.1.reverse

/-- The candidate map, keyed by `(val, length)`. The Go `map` carries no
order; the model keeps entries in first-insertion order (the canonical
enumeration), and `Train` takes an oracle permuting each round's
enumeration to model the arbitrary Go map iteration order. -/
def candUpdate (m : List ((Nat × Nat) × qsym)) (key : Nat × Nat) (q : qsym) :
    List ((Nat × Nat) × qsym) :=
  match m with
  | [] => [(key, q)]
  | (k, v) :: rest => if k = key then (key, q) :: rest else (k, v) :: candUpdate rest key q

/-- Lookup in the candidate map. -/
def candFind (m : List ((Nat × Nat) × qsym)) (key : Nat × Nat) : Option qsym :=
  match m with
  | [] => none
  | (k, v) :: rest => if k = key then some v else candFind rest key

/-- `findNextSymbolFast`: best match on a raw 8-byte load — hash hit,
learned short code, or single byte; returns `(code, advance)`. -/
def findNextSymbolFast (t : Table) (data : List Nat) (position : Nat) : Nat × Nat :=
  let word := load64 (fun j => data.getD j 0) position
  let hashSymbol := t.hashTab (fsstHash (word % 2 ^ 24) % fsstHashTabSize)
  let shortCode := t.shortCodes (word % 65536) % 512
  let maskedWord := word % symMask hashSymbol.ignoredBits
  if hashSymbol.icl < fsstICLFree ∧ hashSymbol.val = maskedWord then
    (hashSymbol.code, hashSymbol.length)
  else if fsstCodeBase ≤ shortCode then (shortCode, 2)
  else (t.byteCodes (word % 256) % 512, 1)

/-- The inner pair-candidate loop of `buildCandidates` for a fixed `code`
with symbol `sym`: scan `code2` with `nextPair`, merge, and accumulate
gains (`uint32`). One fuel unit per loop entry; fuel 513 covers all probe
positions. -/
def pairLoop (t : Table) (c : counters) (minCount bound code : Nat) (sym : symbol) :
    Nat → Nat → List ((Nat × Nat) × qsym) → List ((Nat × Nat) × qsym)
  | 0, _, m => m
  | fuel + 1, code2, m =>
    if code2 < bound then
      let pr := c.nextPair code code2
      if pr.2 = 0 ∨ pr.2 < minCount then
        pairLoop t c minCount bound code sym fuel (pr.1 + 1) m
      else
        let sym2 := t.symbols pr.1
        let merged := fsstConcat sym sym2
        let key := (merged.val, merged.length)
        let gain := pr.2 * merged.length % 2 ^ 32
        let gain2 := match candFind m key with
          | some q => (gain + q.gain) % 2 ^ 32
          | none => gain
        pairLoop t c minCount bound code sym fuel (pr.1 + 1)
          (candUpdate m key { symbol := merged, gain := gain2 })
    else m

/-- The outer single-candidate loop of `buildCandidates`: scan codes with
`nextSingle`, weight single counts (boost 8 for 1-byte symbols), and in
pair rounds run the inner pair loop. -/
def candLoop (t : Table) (c : counters) (frac minCount bound : Nat) :
    Nat → Nat → List ((Nat × Nat) × qsym) → List ((Nat × Nat) × qsym)
  | 0, _, m => m
  | fuel + 1, code, m =>
    if code < bound then
      let pr := c.nextSingle code
      if pr.2 = 0 then candLoop t c frac minCount bound fuel (pr.1 + 1) m
      else
        let sym := t.symbols pr.1
        let weight := if sym.length = 1 then pr.2 * 8 else pr.2
        let m1 :=
          if minCount ≤ weight then
            let key := (sym.val, sym.length)
            let gain := weight % 2 ^ 32 * sym.length % 2 ^ 32
            let gain2 := match candFind m key with
              | some q => (gain + q.gain) % 2 ^ 32
              | none => gain
            candUpdate m key { symbol := sym, gain := gain2 }
          else m
        let m2 :=
          if sym.length = 8 ∨ 128 ≤ frac then m1
          else pairLoop t c minCount bound pr.1 sym 513 0 m1
        candLoop t c frac minCount bound fuel (pr.1 + 1) m2
    else m

/-- `buildCandidates`: collect candidates from the counters, select the
top `fsstMaxSymbols` by gain, clear the table, and re-insert the selected
symbols in selection order (stopping at the symbol budget). The `oracle`
argument supplies the Go map iteration order as a reordering of the
canonical first-insertion enumeration. -/
def buildCandidates (oracle : List qsym → List qsym) (t : Table) (c : counters)
    (frac : Nat) : Table :=
  let minCount := max (5 * frac / 128) 1
  let bound := fsstCodeBase + t.nSymbols
  let m := candLoop t c frac minCount bound 513 0 []
  let lst := selectTopK (oracle (m.map Prod.snd))
  lst.foldl (fun acc q =>
    if acc.nSymbols < fsstMaxSymbols then (acc.addSymbol q.symbol).2 else acc)
    t.clearSymbols

end FSST

namespace FSST

/-- The inner walk of `compressCount` over one sample line: count the
current symbol (and, for multi-byte steps, its first byte), find the next
symbol (fast path when at least 8 bytes remain), and in pair rounds count
the `(cur, next)` and `(cur, first-byte-of-step)` pairs. One fuel unit per
iteration; each iteration advances the position by a symbol length. -/
def ccLoop (t : Table) (line : List Nat) (frac : Nat) :
    Nat → counters → Nat → Nat → Nat → counters
  | 0, c, _, _, _ => c
  | fuel + 1, c, cur, pos, start =>
    let c1 := c.incSingle cur
    let c2 := if pos - start ≠ 1 then c1.incSingle (line.getD start 0) else c1
    if pos = line.length then c2
    else
      let step :=
        if pos < line.length - 7 then
          let nx := findNextSymbolFast t line pos
          (nx.1, pos + nx.2)
        else
          let nxt := t.findLongestSymbol
            (newSymbolFromBytes ((line.drop pos).take (min (pos + 8) line.length - pos)))
          (nxt, pos + (t.symbols nxt).length)
      let c3 :=
        if frac < 128 then
          let cp := c2.incPair cur step.1
          if 1 < step.2 - pos then cp.incPair cur (line.getD pos 0) else cp
        else c2
      ccLoop t line frac fuel c3 step.1 step.2 pos

/-- `compressCount` on one line: seed with the longest match at position 0
and run the walk. -/
def ccLine (t : Table) (c : counters) (line : List Nat) (frac : Nat) : counters :=
  if line.length = 0 then c
  else
    let cur := t.findLongestSymbol (newSymbolFromBytes (line.take (min 8 line.length)))
    ccLoop t line frac (line.length + 1) c cur (t.symbols cur).length 0

/-- `compressCount`: walk every sample line whose index hash lands within
`frac` (all lines in the final round). -/
def compressCount (t : Table) (c : counters) (sample : List (List Nat))
    (frac : Nat) : counters :=
  (List.range sample.length).foldl (fun cc i =>
    if frac < 128 ∧ frac < fsstHash i % (fsstSampleMask + 1) then cc
    else ccLine t cc (sample.getD i []) frac) c

/-- The scan for a nonempty input in `makeSample` (`idx = (idx+1) % len`
until nonempty; fueled — some input is nonempty whenever the loop runs). -/
def findNonEmpty (inputs : List (List Nat)) : Nat → Nat → Nat
  | 0, idx => idx
  | fuel + 1, idx =>
    if (inputs.getD idx []).length = 0 then
      findNonEmpty inputs fuel ((idx + 1) % inputs.length)
    else idx

/-- The sampling loop of `makeSample`: pick a pseudo-random nonempty input
and a 512-byte-aligned window in it, stopping at the 16 KiB target (32 KiB
hard cap). Fuel 32768 covers the loop (every kept window is nonempty). -/
def sampleLoop (inputs : List (List Nat)) :
    Nat → Nat → Nat → List (List Nat) → List (List Nat)
  | 0, _, _, acc => acc
  | fuel + 1, rng, pos, acc =>
    if pos < 32768 then
      let rng1 := fsstHash rng
      let idx := findNonEmpty inputs (inputs.length + 1) (rng1 % inputs.length)
      let inp := inputs.getD idx []
      let numChunks := (inp.length + 511) / 512
      let rng2 := fsstHash rng1
      let off := 512 * (rng2 % numChunks)
      let n := min (inp.length - off) 512
      if 32768 < pos + n then acc
      else
        let acc2 := acc ++ [(inp.drop off).take n]
        if 16384 ≤ pos + n then acc2
        else sampleLoop inputs fuel rng2 (pos + n) acc2
    else acc

/-- `makeSample`: inputs under 16 KiB total are used as-is, larger corpora
are subsampled deterministically from seed 4637947. -/
def makeSample (inputs : List (List Nat)) : List (List Nat) :=
  if (inputs.map List.length).sum < 16384 then inputs
  else sampleLoop inputs 32768 (fsstHash 4637947) 0 []

/-- `Train`: five rounds with `frac = 8, 38, 68, 98, 128`, each parsing the
sample into fresh counters and rebuilding the candidate table, then
`finalize`. `oracle r` supplies the Go map iteration order of round `r`. -/
def Train (oracle : Nat → List qsym → List qsym) (inputs : List (List Nat)) : Table :=
  let sample := makeSample inputs
  let t := applyN (fun r tt =>
    let frac := 8 + 30 * r
    let c := compressCount tt counters.fresh sample frac
    buildCandidates (oracle r) tt c frac) 5 newTable
  t.finalize

/-- The canonical candidate enumeration order (one possible Go map order). -/
def idOracle : Nat → List qsym → List qsym := fun _ l => l

/-- The reversed candidate enumeration order (another possible Go map
order: any permutation of the entries can occur). -/
def revOracle : Nat → List qsym → List qsym := fun _ l => l.reverse

end FSST

namespace FSST

/-! ## Decoder totality (claim C5) -/

/-- Appending a lone escape code to the decoder's input either changes
nothing (the trailing escape is reached as a code and the decoder stops) or
appends the byte `255` (the trailing byte is consumed as the literal of an
escape already present in `ys`). -/
lemma decodeCore_append_escape (dl ds : Nat → Nat) (ys : List Nat) :
    decodeCore dl ds (ys ++ [fsstEscapeCode]) = decodeCore dl ds ys ∨
    decodeCore dl ds (ys ++ [fsstEscapeCode]) =
      decodeCore dl ds ys ++ [fsstEscapeCode] := by
  generalize hn : ys.length = n
  induction n using Nat.strong_induction_on generalizing ys with
  | _ n ih =>
    match ys, hn with
    | [], _ => left; rfl
    | [c], hn =>
      by_cases hc : c < fsstEscapeCode
      · left
        simp [decodeCore, hc]
      · right
        simp [decodeCore, hc]
    | c :: d :: rest, hn =>
      have h2 : (d :: rest).length < n := by simp at hn ⊢; omega
      have h3 : rest.length < n := by simp at hn ⊢; omega
      by_cases hc : c < fsstEscapeCode
      · rcases ih (d :: rest).length h2 (d :: rest) rfl with h | h
        · left
          simp only [List.cons_append] at h ⊢
          simp only [decodeCore, if_pos hc, h]
        · right
          simp only [List.cons_append] at h ⊢
          simp only [decodeCore, if_pos hc, h, List.append_assoc]
      · rcases ih rest.length h3 rest rfl with h | h
        · left
          simp only [List.cons_append] at h ⊢
          simp only [decodeCore, if_neg hc, h]
        · right
          simp only [List.cons_append] at h ⊢
          simp only [decodeCore, if_neg hc, h, List.cons_append]

end FSST

namespace FSST

/-! ## Encoder path analysis (claims C4 and C7) -/

/-- The shape of a finalized table: at most 255 learned symbols; every
learned symbol has length 1–8, a value fitting its length, and the
canonical packed `icl` carrying its own code; the 1-byte symbols are
exactly the codes at `bl` and above (`bl` is the encoder's `byteLim`);
codes below `suffixLim` are 2-byte symbols whose two-byte prefix no
3–8 byte symbol shares. -/
def ValidFin (t : Table) (bl : Nat) : Prop :=
  t.nSymbols ≤ 255 ∧ t.suffixLim ≤ bl ∧ bl ≤ t.nSymbols ∧
  (∀ i, i < t.nSymbols →
    1 ≤ (t.symbols i).length ∧ (t.symbols i).length ≤ 8 ∧
    (t.symbols i).icl = (t.symbols i).length * 2 ^ 28 + i * 2 ^ 16 +
      (8 - (t.symbols i).length) * 8 ∧
    (t.symbols i).val < 2 ^ (8 * (t.symbols i).length) ∧
    ((t.symbols i).length = 1 ↔ bl ≤ i)) ∧
  (∀ i, i < t.suffixLim → (t.symbols i).length = 2) ∧
  (∀ i, i < t.suffixLim → ∀ j, j < t.nSymbols → 3 ≤ (t.symbols j).length →
    (t.symbols j).first2 ≠ (t.symbols i).first2)

instance (t : Table) (bl : Nat) : Decidable (ValidFin t bl) := by
  unfold ValidFin
  infer_instance

/-- Course-of-values rule for `applyN`: an indexed invariant preserved by
each loop step holds of the result. -/
lemma applyN_ind {α : Type} (Q : Nat → α → Prop) (f : Nat → α → α) :
    ∀ (n : Nat) (a : α), (∀ k b, k < n → Q k b → Q (k + 1) (f k b)) →
      Q 0 a → Q n (applyN f n a)
  | 0, _, _, h0 => h0
  | n + 1, a, hf, h0 =>
    hf n _ (Nat.lt_succ_self n)
      (applyN_ind Q f n a (fun k b hk => hf k b (Nat.lt_succ_of_lt hk)) h0)

/-- Every entry of the rebuilt `byteCodes` is the escape marker or the
packed 1-byte code of a learned 1-byte symbol whose first byte is the
index. -/
lemma rebuild_byteCodes_cases (t : Table) (b : Nat) :
    t.rebuildIndices.byteCodes b = packCodeLength fsstCodeMask 1 ∨
    ∃ j, j < t.nSymbols ∧ (t.symbols j).length = 1 ∧ (t.symbols j).first = b ∧
      t.rebuildIndices.byteCodes b = packCodeLength j 1 := by
  have hbc : t.rebuildIndices.byteCodes = applyN (fun i f =>
      if (t.symbols i).length = 1 then
        upd f (t.symbols i).first (packCodeLength i 1)
      else f) t.nSymbols (fun _ => packCodeLength fsstCodeMask 1) := rfl
  rw [hbc]
  refine @applyN_ind (Nat → Nat) (fun _ g => g b = packCodeLength fsstCodeMask 1 ∨
    ∃ j, j < t.nSymbols ∧ (t.symbols j).length = 1 ∧ (t.symbols j).first = b ∧
      g b = packCodeLength j 1) _ t.nSymbols _ ?_ (Or.inl rfl)
  intro k g hk ih
  by_cases hl : (t.symbols k).length = 1
  · rw [if_pos hl]
    by_cases hb : b = (t.symbols k).first
    · exact Or.inr ⟨k, hk, hl, hb.symm, by simp [upd, hb]⟩
    · simpa [upd, hb] using ih
  · rw [if_neg hl]
    exact ih

/-- Every entry of the rebuilt `shortCodes` is the byte-code fallback of
its low byte or the packed 2-byte code of a learned 2-byte symbol whose
two-byte prefix is the index. -/
lemma rebuild_shortCodes_cases (t : Table) (w : Nat) :
    t.rebuildIndices.shortCodes w = t.rebuildIndices.byteCodes (w % 256) ∨
    ∃ j, j < t.nSymbols ∧ (t.symbols j).length = 2 ∧ (t.symbols j).first2 = w ∧
      t.rebuildIndices.shortCodes w = packCodeLength j 2 := by
  have hsc : t.rebuildIndices.shortCodes = applyN (fun i f =>
      if (t.symbols i).length = 2 then
        upd f (t.symbols i).first2 (packCodeLength i 2)
      else f) t.nSymbols (fun v => t.rebuildIndices.byteCodes (v % 256)) := rfl
  rw [hsc]
  refine @applyN_ind (Nat → Nat) (fun _ g => g w = t.rebuildIndices.byteCodes (w % 256) ∨
    ∃ j, j < t.nSymbols ∧ (t.symbols j).length = 2 ∧ (t.symbols j).first2 = w ∧
      g w = packCodeLength j 2) _ t.nSymbols _ ?_ (Or.inl rfl)
  intro k g hk ih
  by_cases hl : (t.symbols k).length = 2
  · rw [if_pos hl]
    by_cases hb : w = (t.symbols k).first2
    · exact Or.inr ⟨k, hk, hl, hb.symm, by simp [upd, hb]⟩
    · simpa [upd, hb] using ih
  · rw [if_neg hl]
    exact ih

/-- Every entry of the rebuilt `hashTab` is free or holds the masked value
and `icl` of a learned symbol of length at least 3. -/
lemma rebuild_hashTab_cases (t : Table) (s : Nat) :
    (t.rebuildIndices.hashTab s).icl = fsstICLFree ∨
    ∃ j, j < t.nSymbols ∧ 3 ≤ (t.symbols j).length ∧
      t.rebuildIndices.hashTab s =
        { val := (t.symbols j).val % symMask (t.symbols j).ignoredBits,
          icl := (t.symbols j).icl } := by
  have hht : t.rebuildIndices.hashTab = applyN (fun i f =>
      if 3 ≤ (t.symbols i).length then hashInsertF f (t.symbols i) else f)
      t.nSymbols (fun _ => { val := 0, icl := fsstICLFree }) := rfl
  rw [hht]
  refine @applyN_ind (Nat → symbol) (fun _ g => (g s).icl = fsstICLFree ∨
    ∃ j, j < t.nSymbols ∧ 3 ≤ (t.symbols j).length ∧
      g s = { val := (t.symbols j).val % symMask (t.symbols j).ignoredBits,
              icl := (t.symbols j).icl }) _ t.nSymbols _ ?_ (Or.inl rfl)
  intro k g hk ih
  by_cases hl : 3 ≤ (t.symbols k).length
  · rw [if_pos hl]
    simp only [hashInsertF]
    by_cases hocc : (g ((t.symbols k).hash % fsstHashTabSize)).icl < fsstICLFree
    · rw [if_pos hocc]
      exact ih
    · rw [if_neg hocc]
      by_cases hb : s = (t.symbols k).hash % fsstHashTabSize
      · exact Or.inr ⟨k, hk, hl, by simp [updS, hb]⟩
      · simpa [updS, hb] using ih
  · rw [if_neg hl]
    exact ih

/-- Field extraction from a canonically packed `icl`. -/
lemma icl_fields (len c : Nat) (h1 : 1 ≤ len) (h8 : len ≤ 8) (hc : c < 512) :
    (len * 2 ^ 28 + c * 2 ^ 16 + (8 - len) * 8) / 2 ^ 28 % 2 ^ 32 = len ∧
    (len * 2 ^ 28 + c * 2 ^ 16 + (8 - len) * 8) / 2 ^ 16 % 512 = c ∧
    (len * 2 ^ 28 + c * 2 ^ 16 + (8 - len) * 8) % 2 ^ 16 = (8 - len) * 8 ∧
    len * 2 ^ 28 + c * 2 ^ 16 + (8 - len) * 8 < fsstICLFree := by
  have hX : c * 2 ^ 16 + (8 - len) * 8 < 2 ^ 28 := by omega
  have e1 : len * 2 ^ 28 + c * 2 ^ 16 + (8 - len) * 8 =
      2 ^ 28 * len + (c * 2 ^ 16 + (8 - len) * 8) := by ring
  have e2 : len * 2 ^ 28 + c * 2 ^ 16 + (8 - len) * 8 =
      2 ^ 16 * (len * 2 ^ 12 + c) + (8 - len) * 8 := by ring
  refine ⟨?_, ?_, ?_, ?_⟩
  · rw [e1, Nat.mul_add_div (by norm_num), Nat.div_eq_of_lt hX]
    omega
  · rw [e2, Nat.mul_add_div (by norm_num),
      Nat.div_eq_of_lt (show (8 - len) * 8 < 2 ^ 16 by omega)]
    have e3 : len * 2 ^ 12 + c + 0 = 512 * (8 * len) + c := by ring
    rw [e3, Nat.mul_add_mod, Nat.mod_eq_of_lt hc]
  · rw [e2, Nat.mul_add_mod]
    omega
  · unfold fsstICLFree
    have hm : len * 2 ^ 28 ≤ 8 * 2 ^ 28 := Nat.mul_le_mul_right _ h8
    omega

/-- On a valid finalized table, a word whose two-byte prefix belongs to a
unique-prefix 2-byte symbol (a code below `suffixLim`) can never match the
hash-table entry the encoder probes: every hash entry comes from a symbol
of length at least 3, and a match would force that symbol to share the
two-byte prefix. -/
lemma no_hash_hit_of_unique (t : Table) (bl : Nat) (h : ValidFin t bl) (w : Nat)
    (i : Nat) (hi : i < t.suffixLim) (hf2 : (t.symbols i).first2 = w % 65536) :
    ¬((t.rebuildIndices.hashTab (fsstHash (w % 2 ^ 24) % fsstHashTabSize)).icl <
        fsstICLFree ∧
      (t.rebuildIndices.hashTab (fsstHash (w % 2 ^ 24) % fsstHashTabSize)).val =
        w % symMask (t.rebuildIndices.hashTab
          (fsstHash (w % 2 ^ 24) % fsstHashTabSize)).ignoredBits) := by
  obtain ⟨hn, hsb, hbn, hsyms, hs2, huniq⟩ := h
  rintro ⟨hlt, hval⟩
  rcases rebuild_hashTab_cases t (fsstHash (w % 2 ^ 24) % fsstHashTabSize) with
    hfree | ⟨j, hj, hl3, hent⟩
  · rw [hfree] at hlt
    exact absurd hlt (lt_irrefl _)
  · obtain ⟨hl1, hl8, hicl, hvlt, _⟩ := hsyms j hj
    have hign : (t.symbols j).ignoredBits = (8 - (t.symbols j).length) * 8 := by
      unfold symbol.ignoredBits
      rw [hicl]
      exact (icl_fields _ j hl1 hl8 (by omega)).2.2.1
    have hmask : symMask (t.symbols j).ignoredBits =
        2 ^ (8 * (t.symbols j).length) := by
      rw [hign]
      unfold symMask
      congr 1
      omega
    rw [hent] at hval
    have hval' : (t.symbols j).val % symMask (t.symbols j).ignoredBits =
        w % symMask (t.symbols j).ignoredBits := hval
    rw [hmask, Nat.mod_eq_of_lt hvlt] at hval'
    have h216 : (2 : Nat) ^ 16 ∣ 2 ^ (8 * (t.symbols j).length) :=
      pow_dvd_pow 2 (by omega)
    have hfj : (t.symbols j).first2 = w % 65536 := by
      unfold symbol.first2
      rw [hval', Nat.mod_mod_of_dvd w h216]
      norm_num
    exact huniq i hi j hj hl3 (hfj.trans hf2.symm)

/-- One-step unfolding of `encodeChunkGo`: the `noSuffixOpt` fast 2-byte
path. -/
lemma ecg_step_fast (sc : Nat → Nat) (ht : Nat → symbol) (sufLim byteLim : Nat)
    (av : Bool) (buf : Nat → Nat) (endp fuel pos : Nat) (dst : List Nat)
    (hpos : pos < endp)
    (hc : sc (load64 buf pos % 65536) % 256 < sufLim % 256) :
    encodeChunkGo sc ht sufLim byteLim true av buf endp (fuel + 1) pos dst =
      encodeChunkGo sc ht sufLim byteLim true av buf endp fuel (pos + 2)
        (dst ++ [sc (load64 buf pos % 65536) % 256]) := by
  simp only [encodeChunkGo, if_pos hpos]
  rw [if_pos (show True ∧ sc (load64 buf pos % 65536) % 256 < sufLim % 256 from
    ⟨trivial, hc⟩)]

/-- One-step unfolding of `encodeChunkGo`: the hash-table hit path. -/
lemma ecg_step_hit (sc : Nat → Nat) (ht : Nat → symbol) (sufLim byteLim : Nat)
    (ns av : Bool) (buf : Nat → Nat) (endp fuel pos : Nat) (dst : List Nat)
    (hpos : pos < endp)
    (hns : ¬(ns = true ∧ sc (load64 buf pos % 65536) % 256 < sufLim % 256))
    (hhit : (ht (fsstHash (load64 buf pos % 2 ^ 24) % fsstHashTabSize)).icl <
        fsstICLFree ∧
      (ht (fsstHash (load64 buf pos % 2 ^ 24) % fsstHashTabSize)).val =
        load64 buf pos % symMask (ht (fsstHash (load64 buf pos % 2 ^ 24) %
          fsstHashTabSize)).ignoredBits) :
    encodeChunkGo sc ht sufLim byteLim ns av buf endp (fuel + 1) pos dst =
      encodeChunkGo sc ht sufLim byteLim ns av buf endp fuel
        (pos + (ht (fsstHash (load64 buf pos % 2 ^ 24) %
          fsstHashTabSize)).length)
        (dst ++ [(ht (fsstHash (load64 buf pos % 2 ^ 24) %
          fsstHashTabSize)).code % 256]) := by
  simp only [encodeChunkGo, if_pos hpos]
  rw [if_neg hns, if_pos hhit]

/-- One-step unfolding of `encodeChunkGo`: the branch-free
(`avoidBranch`) path. -/
lemma ecg_step_avoid (sc : Nat → Nat) (ht : Nat → symbol) (sufLim byteLim : Nat)
    (ns : Bool) (buf : Nat → Nat) (endp fuel pos : Nat) (dst : List Nat)
    (hpos : pos < endp)
    (hns : ¬(ns = true ∧ sc (load64 buf pos % 65536) % 256 < sufLim % 256))
    (hmiss : ¬((ht (fsstHash (load64 buf pos % 2 ^ 24) % fsstHashTabSize)).icl <
        fsstICLFree ∧
      (ht (fsstHash (load64 buf pos % 2 ^ 24) % fsstHashTabSize)).val =
        load64 buf pos % symMask (ht (fsstHash (load64 buf pos % 2 ^ 24) %
          fsstHashTabSize)).ignoredBits)) :
    encodeChunkGo sc ht sufLim byteLim ns true buf endp (fuel + 1) pos dst =
      encodeChunkGo sc ht sufLim byteLim ns true buf endp fuel
        (pos + sc (load64 buf pos % 65536) / 4096)
        (dst ++ [sc (load64 buf pos % 65536) % 256] ++
          if sc (load64 buf pos % 65536) / 256 % 2 = 1 then
            [load64 buf pos % 256] else []) := by
  simp only [encodeChunkGo, if_pos hpos]
  rw [if_neg hns, if_neg hmiss, if_pos trivial]

/-- One-step unfolding of `encodeChunkGo`: the 2-byte code path of the
branching variant. -/
lemma ecg_step_two (sc : Nat → Nat) (ht : Nat → symbol) (sufLim byteLim : Nat)
    (ns : Bool) (buf : Nat → Nat) (endp fuel pos : Nat) (dst : List Nat)
    (hpos : pos < endp)
    (hns : ¬(ns = true ∧ sc (load64 buf pos % 65536) % 256 < sufLim % 256))
    (hmiss : ¬((ht (fsstHash (load64 buf pos % 2 ^ 24) % fsstHashTabSize)).icl <
        fsstICLFree ∧
      (ht (fsstHash (load64 buf pos % 2 ^ 24) % fsstHashTabSize)).val =
        load64 buf pos % symMask (ht (fsstHash (load64 buf pos % 2 ^ 24) %
          fsstHashTabSize)).ignoredBits))
    (hbl : sc (load64 buf pos % 65536) % 256 < byteLim) :
    encodeChunkGo sc ht sufLim byteLim ns false buf endp (fuel + 1) pos dst =
      encodeChunkGo sc ht sufLim byteLim ns false buf endp fuel (pos + 2)
        (dst ++ [sc (load64 buf pos % 65536) % 256]) := by
  simp only [encodeChunkGo, if_pos hpos]
  rw [if_neg hns, if_neg hmiss, if_neg Bool.false_ne_true, if_pos hbl]

/-- One-step unfolding of `encodeChunkGo`: the 1-byte / escape path of the
branching variant. -/
lemma ecg_step_one (sc : Nat → Nat) (ht : Nat → symbol) (sufLim byteLim : Nat)
    (ns : Bool) (buf : Nat → Nat) (endp fuel pos : Nat) (dst : List Nat)
    (hpos : pos < endp)
    (hns : ¬(ns = true ∧ sc (load64 buf pos % 65536) % 256 < sufLim % 256))
    (hmiss : ¬((ht (fsstHash (load64 buf pos % 2 ^ 24) % fsstHashTabSize)).icl <
        fsstICLFree ∧
      (ht (fsstHash (load64 buf pos % 2 ^ 24) % fsstHashTabSize)).val =
        load64 buf pos % symMask (ht (fsstHash (load64 buf pos % 2 ^ 24) %
          fsstHashTabSize)).ignoredBits))
    (hbl : ¬(sc (load64 buf pos % 65536) % 256 < byteLim)) :
    encodeChunkGo sc ht sufLim byteLim ns false buf endp (fuel + 1) pos dst =
      encodeChunkGo sc ht sufLim byteLim ns false buf endp fuel (pos + 1)
        (dst ++ [sc (load64 buf pos % 65536) % 256] ++
          if sc (load64 buf pos % 65536) / 256 % 2 = 1 then
            [load64 buf pos % 256] else []) := by
  simp only [encodeChunkGo, if_pos hpos]
  rw [if_neg hns, if_neg hmiss, if_neg Bool.false_ne_true, if_neg hbl]

/-- On a valid finalized table, every live iteration of `encodeChunkGo`
advances the position and extends the output in a way that does not depend
on the `noSuffixOpt` and `avoidBranch` flags. -/
lemma encodeChunk_step_uniform (t : Table) (bl : Nat) (h : ValidFin t bl)
    (buf : Nat → Nat) (endp pos : Nat) (hpos : pos < endp) :
    ∃ a e, ∀ (ns av : Bool) (fuel : Nat) (dst : List Nat),
      encodeChunkGo t.rebuildIndices.shortCodes t.rebuildIndices.hashTab
        t.suffixLim bl ns av buf endp (fuel + 1) pos dst =
      encodeChunkGo t.rebuildIndices.shortCodes t.rebuildIndices.hashTab
        t.suffixLim bl ns av buf endp fuel (pos + a) (dst ++ e) := by
  obtain ⟨hn, hsb, hbn, hsyms, hs2, huniq⟩ := h
  have hmod : t.suffixLim % 256 = t.suffixLim := Nat.mod_eq_of_lt (by omega)
  by_cases hfast :
      t.rebuildIndices.shortCodes (load64 buf pos % 65536) % 256 < t.suffixLim
  · rcases rebuild_shortCodes_cases t (load64 buf pos % 65536) with
      hsc | ⟨i, hi, hl2, hf2, hsc⟩
    · exfalso
      rcases rebuild_byteCodes_cases t (load64 buf pos % 65536 % 256) with
        hbc | ⟨j, hj, hl1, _, hbc⟩
      · rw [hsc, hbc] at hfast
        unfold packCodeLength fsstCodeMask at hfast
        omega
      · rw [hsc, hbc] at hfast
        have hbj := (hsyms j hj).2.2.2.2.mp hl1
        unfold packCodeLength at hfast
        omega
    · have hcm : t.rebuildIndices.shortCodes (load64 buf pos % 65536) % 256 = i := by
        rw [hsc]
        unfold packCodeLength
        omega
      have hifast : i < t.suffixLim := by
        rw [hcm] at hfast
        exact hfast
      have hnohit := no_hash_hit_of_unique t bl
        ⟨hn, hsb, hbn, hsyms, hs2, huniq⟩ (load64 buf pos) i hifast hf2
      refine ⟨2, [t.rebuildIndices.shortCodes (load64 buf pos % 65536) % 256], ?_⟩
      intro ns av fuel dst
      cases ns with
      | true =>
        exact ecg_step_fast _ _ _ _ av buf endp fuel pos dst hpos
          (by rw [hmod]; exact hfast)
      | false =>
        have hns : ¬(false = true ∧ t.rebuildIndices.shortCodes
            (load64 buf pos % 65536) % 256 < t.suffixLim % 256) :=
          fun hx => Bool.false_ne_true hx.1
        cases av with
        | true =>
          rw [ecg_step_avoid _ _ _ _ false buf endp fuel pos dst hpos hns hnohit]
          have hdiv : t.rebuildIndices.shortCodes (load64 buf pos % 65536) / 4096 = 2 := by
            rw [hsc]
            unfold packCodeLength
            omega
          have hbit : t.rebuildIndices.shortCodes (load64 buf pos % 65536) / 256 % 2 = 0 := by
            rw [hsc]
            unfold packCodeLength
            omega
          rw [hdiv, if_neg (by rw [hbit]; omega)]
          simp
        | false =>
          exact ecg_step_two _ _ _ _ false buf endp fuel pos dst hpos hns hnohit
            (by rw [hcm]; omega)
  · by_cases hhit : (t.rebuildIndices.hashTab (fsstHash (load64 buf pos % 2 ^ 24) %
        fsstHashTabSize)).icl < fsstICLFree ∧
        (t.rebuildIndices.hashTab (fsstHash (load64 buf pos % 2 ^ 24) %
          fsstHashTabSize)).val = load64 buf pos % symMask
          (t.rebuildIndices.hashTab (fsstHash (load64 buf pos % 2 ^ 24) %
            fsstHashTabSize)).ignoredBits
    · refine ⟨(t.rebuildIndices.hashTab (fsstHash (load64 buf pos % 2 ^ 24) %
          fsstHashTabSize)).length,
        [(t.rebuildIndices.hashTab (fsstHash (load64 buf pos % 2 ^ 24) %
          fsstHashTabSize)).code % 256], ?_⟩
      intro ns av fuel dst
      have hns : ¬(ns = true ∧ t.rebuildIndices.shortCodes
          (load64 buf pos % 65536) % 256 < t.suffixLim % 256) := by
        intro hx
        rw [hmod] at hx
        exact hfast hx.2
      exact ecg_step_hit _ _ _ _ ns av buf endp fuel pos dst hpos hns hhit
    · have hns : ∀ ns : Bool, ¬(ns = true ∧ t.rebuildIndices.shortCodes
          (load64 buf pos % 65536) % 256 < t.suffixLim % 256) := by
        intro ns hx
        rw [hmod] at hx
        exact hfast hx.2
      rcases rebuild_shortCodes_cases t (load64 buf pos % 65536) with
        hsc | ⟨i, hi, hl2, hf2, hsc⟩
      · rcases rebuild_byteCodes_cases t (load64 buf pos % 65536 % 256) with
          hbc | ⟨j, hj, hl1, hfj, hbc⟩
        · -- escape marker: advance 1, emit the escape pair
          have hcm : t.rebuildIndices.shortCodes (load64 buf pos % 65536) % 256 = 255 := by
            rw [hsc, hbc]
            unfold packCodeLength fsstCodeMask
            omega
          have hdiv : t.rebuildIndices.shortCodes (load64 buf pos % 65536) / 4096 = 1 := by
            rw [hsc, hbc]
            unfold packCodeLength fsstCodeMask
            omega
          have hbit : t.rebuildIndices.shortCodes (load64 buf pos % 65536) / 256 % 2 = 1 := by
            rw [hsc, hbc]
            unfold packCodeLength fsstCodeMask
            omega
          refine ⟨1, [255, load64 buf pos % 256], ?_⟩
          intro ns av fuel dst
          cases av with
          | true =>
            rw [ecg_step_avoid _ _ _ _ ns buf endp fuel pos dst hpos (hns ns) hhit]
            rw [hdiv, if_pos hbit, hcm]
            simp
          | false =>
            rw [ecg_step_one _ _ _ _ ns buf endp fuel pos dst hpos (hns ns) hhit
              (by rw [hcm]; omega)]
            rw [if_pos hbit, hcm]
            simp
        · -- learned 1-byte code: advance 1, emit the code
          have hj256 : j < 256 := by omega
          have hcm : t.rebuildIndices.shortCodes (load64 buf pos % 65536) % 256 = j := by
            rw [hsc, hbc]
            unfold packCodeLength
            omega
          have hdiv : t.rebuildIndices.shortCodes (load64 buf pos % 65536) / 4096 = 1 := by
            rw [hsc, hbc]
            unfold packCodeLength
            omega
          have hbit : t.rebuildIndices.shortCodes (load64 buf pos % 65536) / 256 % 2 = 0 := by
            rw [hsc, hbc]
            unfold packCodeLength
            omega
          have hbj := (hsyms j hj).2.2.2.2.mp hl1
          refine ⟨1, [j], ?_⟩
          intro ns av fuel dst
          cases av with
          | true =>
            rw [ecg_step_avoid _ _ _ _ ns buf endp fuel pos dst hpos (hns ns) hhit]
            rw [hdiv, if_neg (by rw [hbit]; omega), hcm]
            simp
          | false =>
            rw [ecg_step_one _ _ _ _ ns buf endp fuel pos dst hpos (hns ns) hhit
              (by rw [hcm]; omega)]
            rw [if_neg (by rw [hbit]; omega), hcm]
            simp
      · -- learned 2-byte code: advance 2, emit the code
        have hi256 : i < 256 := by omega
        have hcm : t.rebuildIndices.shortCodes (load64 buf pos % 65536) % 256 = i := by
          rw [hsc]
          unfold packCodeLength
          omega
        have hdiv : t.rebuildIndices.shortCodes (load64 buf pos % 65536) / 4096 = 2 := by
          rw [hsc]
          unfold packCodeLength
          omega
        have hbit : t.rebuildIndices.shortCodes (load64 buf pos % 65536) / 256 % 2 = 0 := by
          rw [hsc]
          unfold packCodeLength
          omega
        have hibl : i < bl := by
          rcases Nat.lt_or_ge i bl with hlt | hge
          · exact hlt
          · have := (hsyms i hi).2.2.2.2.mpr hge
            omega
        refine ⟨2, [i], ?_⟩
        intro ns av fuel dst
        cases av with
        | true =>
          rw [ecg_step_avoid _ _ _ _ ns buf endp fuel pos dst hpos (hns ns) hhit]
          rw [hdiv, if_neg (by rw [hbit]; omega), hcm]
          simp
        | false =>
          rw [ecg_step_two _ _ _ _ ns buf endp fuel pos dst hpos (hns ns) hhit
            (by rw [hcm]; omega)]
          rw [hcm]

/-- The all-escape encoding of a byte list: every byte as the two-byte
escape sequence `255, b`. -/
def escapeAll : List Nat → List Nat
  | [] => []
  | b :: rest => 255 :: b % 256 :: escapeAll rest

/-- The all-escape encoding of `k` consecutive buffer bytes starting at
`pos`. -/
def escapeRange (buf : Nat → Nat) : Nat → Nat → List Nat
  | _, 0 => []
  | pos, k + 1 => 255 :: buf pos % 256 :: escapeRange buf (pos + 1) k

lemma escapeAll_append (a b : List Nat) :
    escapeAll (a ++ b) = escapeAll a ++ escapeAll b := by
  induction a with
  | nil => rfl
  | cons x rest ih => simp [escapeAll, ih]

/-- The low byte of the 8-byte load is the byte at the load position. -/
lemma load64_mod (buf : Nat → Nat) (pos : Nat) :
    load64 buf pos % 256 = buf pos % 256 := by
  unfold load64
  omega

/-- Rebuilt `shortCodes` entries always carry a positive length field. -/
lemma rebuild_sc_div (t : Table) (hn : t.nSymbols ≤ 255) (w : Nat) :
    1 ≤ t.rebuildIndices.shortCodes w / 4096 := by
  rcases rebuild_shortCodes_cases t w with hsc | ⟨j, hj, _, _, hsc⟩
  · rcases rebuild_byteCodes_cases t (w % 256) with hbc | ⟨j, hj, _, _, hbc⟩
    · rw [hsc, hbc]
      unfold packCodeLength fsstCodeMask
      omega
    · rw [hsc, hbc]
      unfold packCodeLength
      omega
  · rw [hsc]
    unfold packCodeLength
    omega

/-- A rebuilt `shortCodes` entry with the escape bit set is the escape
marker: its code byte is 255 and its length field is 1. -/
lemma rebuild_sc_escape (t : Table) (hn : t.nSymbols ≤ 255) (w : Nat)
    (hbit : t.rebuildIndices.shortCodes w / 256 % 2 = 1) :
    t.rebuildIndices.shortCodes w % 256 = 255 ∧
      t.rebuildIndices.shortCodes w / 4096 = 1 := by
  rcases rebuild_shortCodes_cases t w with hsc | ⟨j, hj, _, _, hsc⟩
  · rcases rebuild_byteCodes_cases t (w % 256) with hbc | ⟨j, hj, _, _, hbc⟩
    · rw [hsc, hbc] at hbit ⊢
      unfold packCodeLength fsstCodeMask at hbit ⊢
      omega
    · rw [hsc, hbc] at hbit ⊢
      unfold packCodeLength at hbit ⊢
      omega
  · rw [hsc] at hbit ⊢
    unfold packCodeLength at hbit ⊢
    omega

/-- Occupied rebuilt hash-table entries have a positive length. -/
lemma rebuild_ht_len (t : Table) (s : Nat)
    (hocc : (t.rebuildIndices.hashTab s).icl < fsstICLFree) :
    1 ≤ (t.rebuildIndices.hashTab s).length := by
  rcases rebuild_hashTab_cases t s with hfree | ⟨j, hj, h3, hent⟩
  · rw [hfree] at hocc
    exact absurd hocc (lt_irrefl _)
  · rw [hent]
    show 1 ≤ (t.symbols j).icl / 2 ^ 28 % 2 ^ 32
    have he : (t.symbols j).length = (t.symbols j).icl / 2 ^ 28 % 2 ^ 32 := rfl
    omega

/-- The output-size bound of one chunk: `encodeChunkGo` with fuel covering
the chunk always succeeds, appends at most two bytes per input byte, and
attains the bound only by escaping every byte of the chunk. -/
lemma encodeChunk_bound (sc : Nat → Nat) (ht : Nat → symbol)
    (sufLim byteLim : Nat) (ns av : Bool) (buf : Nat → Nat) (endp : Nat)
    (hsc1 : ∀ w, 1 ≤ sc w / 4096)
    (hsc2 : ∀ w, sc w / 256 % 2 = 1 → sc w % 256 = 255 ∧ sc w / 4096 = 1)
    (hht : ∀ s, (ht s).icl < fsstICLFree → 1 ≤ (ht s).length) :
    ∀ (fuel pos : Nat) (dst : List Nat), endp ≤ pos + fuel →
      ∃ out, encodeChunkGo sc ht sufLim byteLim ns av buf endp fuel pos dst =
          some out ∧
        out.length ≤ dst.length + 2 * (endp - pos) ∧
        (out.length = dst.length + 2 * (endp - pos) →
          out = dst ++ escapeRange buf pos (endp - pos)) := by
  intro fuel
  induction fuel with
  | zero =>
    intro pos dst hf
    have hnp : ¬pos < endp := by omega
    refine ⟨dst, by simp [encodeChunkGo, hnp], by omega, ?_⟩
    intro _
    have h0 : endp - pos = 0 := by omega
    rw [h0]
    simp [escapeRange]
  | succ m ih =>
    intro pos dst hf
    by_cases hpos : pos < endp
    · by_cases hfc : ns = true ∧ sc (load64 buf pos % 65536) % 256 < sufLim % 256
      · obtain ⟨hnse, hlt⟩ := hfc
        subst hnse
        obtain ⟨out, heq, hle, heqc⟩ :=
          ih (pos + 2) (dst ++ [sc (load64 buf pos % 65536) % 256]) (by omega)
        simp only [List.length_append, List.length_cons, List.length_nil] at hle
        refine ⟨out, ?_, by omega, fun hx => absurd hx (by omega)⟩
        rw [ecg_step_fast _ _ _ _ av buf endp m pos dst hpos hlt]
        exact heq
      · by_cases hhit : (ht (fsstHash (load64 buf pos % 2 ^ 24) %
            fsstHashTabSize)).icl < fsstICLFree ∧
            (ht (fsstHash (load64 buf pos % 2 ^ 24) % fsstHashTabSize)).val =
              load64 buf pos % symMask (ht (fsstHash (load64 buf pos % 2 ^ 24) %
                fsstHashTabSize)).ignoredBits
        · have ha := hht _ hhit.1
          obtain ⟨out, heq, hle, heqc⟩ :=
            ih (pos + (ht (fsstHash (load64 buf pos % 2 ^ 24) %
              fsstHashTabSize)).length)
              (dst ++ [(ht (fsstHash (load64 buf pos % 2 ^ 24) %
                fsstHashTabSize)).code % 256]) (by omega)
          simp only [List.length_append, List.length_cons, List.length_nil] at hle
          refine ⟨out, ?_, by omega, fun hx => absurd hx (by omega)⟩
          rw [ecg_step_hit _ _ _ _ ns av buf endp m pos dst hpos hfc hhit]
          exact heq
        · cases av with
          | true =>
            by_cases hbit : sc (load64 buf pos % 65536) / 256 % 2 = 1
            · obtain ⟨h255, h1⟩ := hsc2 _ hbit
              obtain ⟨out, heq, hle, heqc⟩ :=
                ih (pos + 1) (dst ++ [255, buf pos % 256]) (by omega)
              simp only [List.length_append, List.length_cons, List.length_nil]
                at hle
              refine ⟨out, ?_, by omega, ?_⟩
              · rw [ecg_step_avoid _ _ _ _ ns buf endp m pos dst hpos hfc hhit,
                  if_pos hbit, h1, h255, load64_mod, List.append_assoc,
                  List.singleton_append]
                exact heq
              · intro hx
                have hout : out.length =
                    (dst ++ [255, buf pos % 256]).length + 2 * (endp - (pos + 1)) := by
                  simp only [List.length_append, List.length_cons, List.length_nil]
                  omega
                have hD : endp - pos = (endp - (pos + 1)) + 1 := by omega
                rw [heqc hout, hD]
                simp [escapeRange]
            · have ha := hsc1 (load64 buf pos % 65536)
              obtain ⟨out, heq, hle, heqc⟩ :=
                ih (pos + sc (load64 buf pos % 65536) / 4096)
                  (dst ++ [sc (load64 buf pos % 65536) % 256]) (by omega)
              simp only [List.length_append, List.length_cons, List.length_nil]
                at hle
              refine ⟨out, ?_, by omega, fun hx => absurd hx (by omega)⟩
              rw [ecg_step_avoid _ _ _ _ ns buf endp m pos dst hpos hfc hhit,
                if_neg hbit, List.append_nil]
              exact heq
          | false =>
            by_cases hbl : sc (load64 buf pos % 65536) % 256 < byteLim
            · obtain ⟨out, heq, hle, heqc⟩ :=
                ih (pos + 2) (dst ++ [sc (load64 buf pos % 65536) % 256]) (by omega)
              simp only [List.length_append, List.length_cons, List.length_nil]
                at hle
              refine ⟨out, ?_, by omega, fun hx => absurd hx (by omega)⟩
              rw [ecg_step_two _ _ _ _ ns buf endp m pos dst hpos hfc hhit hbl]
              exact heq
            · by_cases hbit : sc (load64 buf pos % 65536) / 256 % 2 = 1
              · obtain ⟨h255, _⟩ := hsc2 _ hbit
                obtain ⟨out, heq, hle, heqc⟩ :=
                  ih (pos + 1) (dst ++ [255, buf pos % 256]) (by omega)
                simp only [List.length_append, List.length_cons, List.length_nil]
                  at hle
                refine ⟨out, ?_, by omega, ?_⟩
                · rw [ecg_step_one _ _ _ _ ns buf endp m pos dst hpos hfc hhit hbl,
                    if_pos hbit, h255, load64_mod, List.append_assoc,
                    List.singleton_append]
                  exact heq
                · intro hx
                  have hout : out.length =
                      (dst ++ [255, buf pos % 256]).length +
                        2 * (endp - (pos + 1)) := by
                    simp only [List.length_append, List.length_cons,
                      List.length_nil]
                    omega
                  have hD : endp - pos = (endp - (pos + 1)) + 1 := by omega
                  rw [heqc hout, hD]
                  simp [escapeRange]
              · obtain ⟨out, heq, hle, heqc⟩ :=
                  ih (pos + 1) (dst ++ [sc (load64 buf pos % 65536) % 256])
                    (by omega)
                simp only [List.length_append, List.length_cons, List.length_nil]
                  at hle
                refine ⟨out, ?_, by omega, fun hx => absurd hx (by omega)⟩
                rw [ecg_step_one _ _ _ _ ns buf endp m pos dst hpos hfc hhit hbl,
                  if_neg hbit, List.append_nil]
                exact heq
    · refine ⟨dst, by simp [encodeChunkGo, hpos], by omega, ?_⟩
      intro _
      have h0 : endp - pos = 0 := by omega
      rw [h0]
      simp [escapeRange]

/-- Escaping a range of the freshly loaded chunk buffer escapes the chunk
bytes themselves. -/
lemma escapeRange_writeChunk (buf : Nat → Nat) (cb : List Nat) :
    ∀ k j, j + k ≤ cb.length →
      escapeRange (writeChunk buf cb) j k = escapeAll ((cb.drop j).take k) := by
  intro k
  induction k with
  | zero =>
    intro j hj
    simp [escapeRange, escapeAll]
  | succ m ih =>
    intro j hj
    have hjlt : j < cb.length := by omega
    rw [escapeRange, ih (j + 1) (by omega)]
    have hw : writeChunk buf cb j = cb.getD j 0 := by simp [writeChunk, hjlt]
    have hdrop : cb.drop j = cb.getD j 0 :: cb.drop (j + 1) := by
      rw [List.drop_eq_getElem_cons hjlt]
      congr 1
      exact (List.getD_eq_getElem cb 0 hjlt).symm
    rw [hw, hdrop]
    rfl

/-- The output-size bound over the whole chunked encoding loop. -/
lemma encodeChunks_bound (sc : Nat → Nat) (ht : Nat → symbol)
    (sufLim byteLim : Nat) (ns av : Bool)
    (hsc1 : ∀ w, 1 ≤ sc w / 4096)
    (hsc2 : ∀ w, sc w / 256 % 2 = 1 → sc w % 256 = 255 ∧ sc w / 4096 = 1)
    (hht : ∀ s, (ht s).icl < fsstICLFree → 1 ≤ (ht s).length) :
    ∀ (gas : Nat) (xs : List Nat) (buf : Nat → Nat) (dst : List Nat),
      xs.length ≤ gas →
      ∃ out bufout,
        encodeChunksGo sc ht sufLim byteLim ns av gas buf dst xs =
          some (out, bufout) ∧
        out.length ≤ dst.length + 2 * xs.length ∧
        (out.length = dst.length + 2 * xs.length →
          out = dst ++ escapeAll xs) := by
  intro gas
  induction gas with
  | zero =>
    intro xs buf dst hlen
    match xs, hlen with
    | [], _ => exact ⟨dst, buf, rfl, by simp, fun _ => by simp [escapeAll]⟩
  | succ g ih =>
    intro xs buf dst hlen
    match xs with
    | [] => exact ⟨dst, buf, rfl, by simp, fun _ => by simp [escapeAll]⟩
    | x :: rest =>
      have hchle : min (x :: rest).length fsstChunkSize ≤ (x :: rest).length :=
        min_le_left _ _
      have hch1 : 1 ≤ min (x :: rest).length fsstChunkSize :=
        le_min (by simp) (by norm_num [fsstChunkSize])
      obtain ⟨dst2, heq2, hle2, heqc2⟩ := encodeChunk_bound sc ht sufLim byteLim
        ns av (writeChunk buf ((x :: rest).take
          (min (x :: rest).length fsstChunkSize)))
        (min (x :: rest).length fsstChunkSize) hsc1 hsc2 hht
        (min (x :: rest).length fsstChunkSize) 0 dst (by omega)
      have hstep : encodeChunksGo sc ht sufLim byteLim ns av (g + 1) buf dst
          (x :: rest) =
          encodeChunksGo sc ht sufLim byteLim ns av g
            (writeChunk buf ((x :: rest).take
              (min (x :: rest).length fsstChunkSize))) dst2
            ((x :: rest).drop (min (x :: rest).length fsstChunkSize)) := by
        simp only [encodeChunksGo]
        rw [heq2]
      have hdlen : ((x :: rest).drop
          (min (x :: rest).length fsstChunkSize)).length =
          (x :: rest).length - min (x :: rest).length fsstChunkSize :=
        List.length_drop _ _
      obtain ⟨out, bufout, heq3, hle3, heqc3⟩ := ih
        ((x :: rest).drop (min (x :: rest).length fsstChunkSize))
        (writeChunk buf ((x :: rest).take
          (min (x :: rest).length fsstChunkSize))) dst2 (by rw [hdlen]; omega)
      rw [hdlen] at hle3
      refine ⟨out, bufout, by rw [hstep]; exact heq3, by omega, ?_⟩
      intro hx
      have htklen : ((x :: rest).take
          (min (x :: rest).length fsstChunkSize)).length =
          min (x :: rest).length fsstChunkSize := by
        rw [List.length_take]
        omega
      have hdst2 : dst2 = dst ++ escapeRange (writeChunk buf ((x :: rest).take
          (min (x :: rest).length fsstChunkSize))) 0
          (min (x :: rest).length fsstChunkSize - 0) :=
        heqc2 (by omega)
      have hout : out = dst2 ++ escapeAll ((x :: rest).drop
          (min (x :: rest).length fsstChunkSize)) := by
        refine heqc3 ?_
        rw [hdlen]
        have h2 : dst2.length = dst.length +
            2 * (min (x :: rest).length fsstChunkSize) := by
          have hdl : dst2.length = dst.length +
              (escapeRange (writeChunk buf ((x :: rest).take
                (min (x :: rest).length fsstChunkSize))) 0
                (min (x :: rest).length fsstChunkSize - 0)).length := by
            rw [hdst2, List.length_append]
          have hrl : ∀ (b : Nat → Nat) (p k : Nat),
              (escapeRange b p k).length = 2 * k := by
            intro b p k
            induction k generalizing p with
            | zero => rfl
            | succ kk ihk => simp [escapeRange, ihk]; omega
          rw [hrl] at hdl
          omega
        omega
      rw [hout, hdst2,
        escapeRange_writeChunk buf ((x :: rest).take
          (min (x :: rest).length fsstChunkSize))
          (min (x :: rest).length fsstChunkSize - 0) 0 (by rw [htklen]; omega),
        List.drop_zero]
      have hts : ((x :: rest).take (min (x :: rest).length fsstChunkSize)).take
          (min (x :: rest).length fsstChunkSize - 0) =
          (x :: rest).take (min (x :: rest).length fsstChunkSize) :=
        List.take_of_length_le (by rw [htklen]; omega)
      rw [hts, List.append_assoc, ← escapeAll_append, List.take_append_drop]

end FSST

namespace FSST

/-! ## Serialization round-trip (claim C3) -/

/-- Pointwise-equal loop bodies give equal `applyN` results. -/
lemma applyN_congr {α : Type} (f g : Nat → α → α) (n : Nat) (a : α)
    (h : ∀ k, k < n → ∀ c, f k c = g k c) :
    applyN f n a = applyN g n a := by
  induction n with
  | zero => rfl
  | succ m ih =>
    show f m (applyN f m a) = g m (applyN g m a)
    rw [h m (Nat.lt_succ_self m), ih (fun k hk => h k (Nat.lt_succ_of_lt hk))]

lemma toLEBytes_length (n v : Nat) : (toLEBytes n v).length = n := by
  simp [toLEBytes]

lemma fromLE_aux (bs : List Nat) (acc : Nat) :
    bs.foldr (fun b a => a * 256 + b) acc =
      acc * 256 ^ bs.length + bs.foldr (fun b a => a * 256 + b) 0 := by
  induction bs with
  | nil => simp
  | cons x tl ih =>
    simp only [List.foldr_cons, List.length_cons, ih]
    ring

/-- Little-endian serialization followed by deserialization truncates to the
width. -/
lemma fromLE_toLE (n v : Nat) : fromLEBytes (toLEBytes n v) = v % 2 ^ (8 * n) := by
  induction n with
  | zero => simp [toLEBytes, fromLEBytes, Nat.mod_one]
  | succ m ih =>
    have hsplit : toLEBytes (m + 1) v = toLEBytes m v ++ [v / 2 ^ (8 * m) % 256] := by
      unfold toLEBytes
      rw [List.range_succ, List.map_append]
      simp
    rw [hsplit]
    show (toLEBytes m v ++ [v / 2 ^ (8 * m) % 256]).foldr
      (fun b a => a * 256 + b) 0 = v % 2 ^ (8 * (m + 1))
    simp only [List.foldr_append, List.foldr_cons, List.foldr_nil, Nat.zero_mul,
      Nat.zero_add]
    rw [fromLE_aux]
    have hlen : (toLEBytes m v).length = m := toLEBytes_length m v
    rw [hlen]
    have hih : (toLEBytes m v).foldr (fun b a => a * 256 + b) 0 = v % 2 ^ (8 * m) := ih
    rw [hih]
    have hpow : (256 : Nat) ^ m = 2 ^ (8 * m) := by
      rw [show (256 : Nat) = 2 ^ 8 from rfl, ← pow_mul]
    rw [hpow]
    have hms : v % 2 ^ (8 * (m + 1)) =
        2 ^ (8 * m) * (v / 2 ^ (8 * m) % 256) + v % 2 ^ (8 * m) := by
      have h1 : (2 : Nat) ^ (8 * (m + 1)) = 2 ^ (8 * m) * 256 := by
        rw [show 8 * (m + 1) = 8 * m + 8 from by ring, pow_add]
        norm_num
      rw [h1, Nat.mod_mul]
      ring
    rw [hms]
    ring

/-- Each cell of the derived histogram is bounded by the symbol count. -/
lemma derivedHisto_le (t : Table) (l : Nat) : derivedHisto t l ≤ t.nSymbols := by
  have hd : derivedHisto t = applyN (fun i h =>
      let ll := (t.symbols i).length
      if 1 ≤ ll ∧ ll ≤ 8 then upd h (ll - 1) ((h (ll - 1) + 1) % 65536) else h)
      t.nSymbols (fun _ => 0) := rfl
  rw [hd]
  refine @applyN_ind (Nat → Nat) (fun k h => ∀ ll, h ll ≤ k) _ t.nSymbols _
    ?_ (fun _ => Nat.le_refl 0) l
  intro k g _ ih
  intro ll
  show (if 1 ≤ (t.symbols k).length ∧ (t.symbols k).length ≤ 8 then
      upd g ((t.symbols k).length - 1) ((g ((t.symbols k).length - 1) + 1) % 65536)
    else g) ll ≤ k + 1
  by_cases hc : 1 ≤ (t.symbols k).length ∧ (t.symbols k).length ≤ 8
  · rw [if_pos hc]
    unfold upd
    by_cases hll : ll = (t.symbols k).length - 1
    · rw [if_pos hll]
      have := ih ((t.symbols k).length - 1)
      have hmle := Nat.mod_le (g ((t.symbols k).length - 1) + 1) 65536
      omega
    · rw [if_neg hll]
      exact Nat.le_succ_of_le (ih ll)
  · rw [if_neg hc]
    exact Nat.le_succ_of_le (ih ll)

/-- The symbol array `readSymbols` produces: entries `i0 ≤ j < i0 + count`
parsed from the (length, value) item list, the rest untouched. -/
def readSymsFun (items : List (Nat × Nat)) (i0 : Nat) (base : Nat → symbol) :
    Nat → symbol :=
  fun j =>
    if i0 ≤ j ∧ j < i0 + items.length then
      symbol.setCodeLen { val := (items.getD (j - i0) (0, 0)).2, icl := 0 } j
        (items.getD (j - i0) (0, 0)).1
    else base j

/-- `readSymbols` on the concatenation of the per-item little-endian bytes
parses every item back (values must fit their widths). -/
lemma readSymbols_spec :
    ∀ (items : List (Nat × Nat)) (i0 : Nat) (base : Nat → symbol),
      (∀ p ∈ items, p.2 < 2 ^ (8 * p.1)) →
      readSymbols ((items.map (fun p => toLEBytes p.1 p.2)).flatten)
          (items.map Prod.fst) i0 base =
        some (readSymsFun items i0 base) := by
  intro items
  induction items with
  | nil =>
    intro i0 base _
    have h0 : readSymsFun [] i0 base = base := by
      funext j
      unfold readSymsFun
      rw [if_neg (by simp)]
    rw [h0]
    rfl
  | cons p rest ih =>
    intro i0 base hv
    obtain ⟨l, v⟩ := p
    have hvp : v < 2 ^ (8 * l) := hv (l, v) (by simp)
    simp only [List.map_cons, List.flatten_cons]
    show (if (toLEBytes l v ++ (rest.map (fun p => toLEBytes p.1 p.2)).flatten).length < l
      then none
      else readSymbols ((toLEBytes l v ++
          (rest.map (fun p => toLEBytes p.1 p.2)).flatten).drop l) (rest.map Prod.fst)
        (i0 + 1) (updS base i0 (symbol.setCodeLen
          { val := fromLEBytes ((toLEBytes l v ++
              (rest.map (fun p => toLEBytes p.1 p.2)).flatten).take l), icl := 0 }
          i0 l))) = some (readSymsFun ((l, v) :: rest) i0 base)
    rw [if_neg (by rw [List.length_append, toLEBytes_length]; omega)]
    have htk : (toLEBytes l v ++
        (rest.map (fun p => toLEBytes p.1 p.2)).flatten).take l = toLEBytes l v :=
      List.take_left' (toLEBytes_length l v)
    have hdp : (toLEBytes l v ++
        (rest.map (fun p => toLEBytes p.1 p.2)).flatten).drop l =
        (rest.map (fun p => toLEBytes p.1 p.2)).flatten :=
      List.drop_left' (toLEBytes_length l v)
    rw [htk, hdp, fromLE_toLE, Nat.mod_eq_of_lt hvp,
      ih (i0 + 1) _ (fun q hq => hv q (by simp [hq]))]
    congr 1
    funext j
    unfold readSymsFun updS
    by_cases h1 : i0 + 1 ≤ j ∧ j < i0 + 1 + rest.length
    · rw [if_pos h1, if_pos (by simp only [List.length_cons]; omega)]
      have hji : j - i0 = (j - (i0 + 1)) + 1 := by omega
      rw [hji, List.getD_cons_succ]
    · rw [if_neg h1]
      by_cases h2 : j = i0
      · subst h2
        rw [if_pos rfl, if_pos (by simp only [List.length_cons]; omega)]
        have hz : j - j = 0 := by omega
        rw [hz, List.getD_cons_zero]
      · rw [if_neg h2, if_neg (by simp only [List.length_cons]; omega)]

/-- Two tables agreeing on the encoder-relevant state (`nSymbols`,
`suffixLim`, the first 8 histogram cells and the learned symbols) encode
every input identically. -/
lemma Encode_congr (t t' : Table)
    (hn : t'.nSymbols = t.nSymbols) (hs : t'.suffixLim = t.suffixLim)
    (hh : ∀ l, l < 8 → t'.lenHisto l = t.lenHisto l)
    (hsym : ∀ i, i < t.nSymbols → t'.symbols i = t.symbols i) (x : List Nat) :
    t'.Encode x = t.Encode x := by
  have hbc : t'.rebuildIndices.byteCodes = t.rebuildIndices.byteCodes := by
    have h1 : t'.rebuildIndices.byteCodes = applyN (fun i f =>
        if (t'.symbols i).length = 1 then
          upd f (t'.symbols i).first (packCodeLength i 1)
        else f) t'.nSymbols (fun _ => packCodeLength fsstCodeMask 1) := rfl
    have h2 : t.rebuildIndices.byteCodes = applyN (fun i f =>
        if (t.symbols i).length = 1 then
          upd f (t.symbols i).first (packCodeLength i 1)
        else f) t.nSymbols (fun _ => packCodeLength fsstCodeMask 1) := rfl
    rw [h1, h2, hn]
    exact applyN_congr _ _ _ _ (fun k hk c => by rw [hsym k hk])
  have hsc : t'.rebuildIndices.shortCodes = t.rebuildIndices.shortCodes := by
    have h1 : t'.rebuildIndices.shortCodes = applyN (fun i f =>
        if (t'.symbols i).length = 2 then
          upd f (t'.symbols i).first2 (packCodeLength i 2)
        else f) t'.nSymbols (fun v => t'.rebuildIndices.byteCodes (v % 256)) := rfl
    have h2 : t.rebuildIndices.shortCodes = applyN (fun i f =>
        if (t.symbols i).length = 2 then
          upd f (t.symbols i).first2 (packCodeLength i 2)
        else f) t.nSymbols (fun v => t.rebuildIndices.byteCodes (v % 256)) := rfl
    rw [h1, h2, hn, hbc]
    exact applyN_congr _ _ _ _ (fun k hk c => by rw [hsym k hk])
  have hht : t'.rebuildIndices.hashTab = t.rebuildIndices.hashTab := by
    have h1 : t'.rebuildIndices.hashTab = applyN (fun i f =>
        if 3 ≤ (t'.symbols i).length then hashInsertF f (t'.symbols i) else f)
        t'.nSymbols (fun _ => { val := 0, icl := fsstICLFree }) := rfl
    have h2 : t.rebuildIndices.hashTab = applyN (fun i f =>
        if 3 ≤ (t.symbols i).length then hashInsertF f (t.symbols i) else f)
        t.nSymbols (fun _ => { val := 0, icl := fsstICLFree }) := rfl
    rw [h1, h2, hn]
    exact applyN_congr _ _ _ _ (fun k hk c => by rw [hsym k hk])
  have hbl : (t'.nSymbols % 256 + 256 - t'.lenHisto 0 % 256) % 256 =
      (t.nSymbols % 256 + 256 - t.lenHisto 0 % 256) % 256 := by
    rw [hn, hh 0 (by omega)]
  have hcv : chooseVariant t'.rebuildIndices = chooseVariant t.rebuildIndices := by
    unfold chooseVariant
    rw [show t'.rebuildIndices.lenHisto = t'.lenHisto from rfl,
      show t.rebuildIndices.lenHisto = t.lenHisto from rfl,
      show t'.rebuildIndices.nSymbols = t'.nSymbols from rfl,
      show t.rebuildIndices.nSymbols = t.nSymbols from rfl,
      show t'.rebuildIndices.suffixLim = t'.suffixLim from rfl,
      show t.rebuildIndices.suffixLim = t.suffixLim from rfl,
      hn, hs, hh 0 (by omega), hh 1 (by omega), hh 2 (by omega),
      hh 6 (by omega), hh 7 (by omega)]
  show (t'.EncodeWith (fun _ => 0) x).map Prod.fst =
    (t.EncodeWith (fun _ => 0) x).map Prod.fst
  have hE' : t'.EncodeWith (fun _ => 0) x = encodeChunksGo
      t'.rebuildIndices.shortCodes t'.rebuildIndices.hashTab
      t'.rebuildIndices.suffixLim
      ((t'.nSymbols % 256 + 256 - t'.lenHisto 0 % 256) % 256)
      (chooseVariant t'.rebuildIndices).1 (chooseVariant t'.rebuildIndices).2
      x.length (fun _ => 0) [] x := rfl
  have hE : t.EncodeWith (fun _ => 0) x = encodeChunksGo
      t.rebuildIndices.shortCodes t.rebuildIndices.hashTab
      t.rebuildIndices.suffixLim
      ((t.nSymbols % 256 + 256 - t.lenHisto 0 % 256) % 256)
      (chooseVariant t.rebuildIndices).1 (chooseVariant t.rebuildIndices).2
      x.length (fun _ => 0) [] x := rfl
  rw [hE', hE, hsc, hht, hcv, hbl,
    show t'.rebuildIndices.suffixLim = t'.suffixLim from rfl,
    show t.rebuildIndices.suffixLim = t.suffixLim from rfl, hs]

/-- The shape of a finalized trained table that `WriteTo` serializes
loss-free: bounded counts, canonical symbol metadata, a stored histogram
matching the symbols, and symbols laid out in the schedule order `ReadFrom`
reconstructs (lengths 2–8 in order, then the 1-byte group). -/
def ValidSer (t : Table) : Prop :=
  t.nSymbols ≤ 255 ∧ t.suffixLim ≤ 255 ∧
  (∀ i, i < t.nSymbols →
    1 ≤ (t.symbols i).length ∧ (t.symbols i).length ≤ 8 ∧
    (t.symbols i).icl = (t.symbols i).length * 2 ^ 28 + i * 2 ^ 16 +
      (8 - (t.symbols i).length) * 8 ∧
    (t.symbols i).val < 2 ^ (8 * (t.symbols i).length)) ∧
  (∀ l, l < 8 → t.lenHisto l = derivedHisto t l) ∧
  ((List.range 7).map (fun j =>
      List.replicate (derivedHisto t (j + 1)) (j + 2))).flatten ++
    List.replicate (derivedHisto t 0) 1 =
    (List.range t.nSymbols).map (fun i => (t.symbols i).length)

instance (t : Table) : Decidable (ValidSer t) := by
  unfold ValidSer
  infer_instance

/-- The first 8 bytes after the header of `writeTo`'s output are the
derived histogram. -/
lemma writeTo_histo_getD (t : Table) (h : ValidSer t) (i : Nat) (hi : i < 8) :
    (t.writeTo.drop 8).getD i 0 = derivedHisto t i := by
  obtain ⟨hn, hsl, hsyms, hlh, hsched⟩ := h
  have hlen8 : (toLEBytes 8 (20190218 * 2 ^ 32 + t.suffixLim * 2 ^ 16 +
      t.nSymbols * 2 ^ 8 + 1)).length = 8 := toLEBytes_length _ _
  have hwt : t.writeTo =
      toLEBytes 8 (20190218 * 2 ^ 32 + t.suffixLim * 2 ^ 16 +
        t.nSymbols * 2 ^ 8 + 1) ++
      ((List.range 8).map (fun i => derivedHisto t i % 256) ++
        ((List.range t.nSymbols).map
          (fun i => toLEBytes (t.symbols i).length (t.symbols i).val)).flatten) := by
    show toLEBytes 8 _ ++ _ ++ _ = _
    rw [List.append_assoc]
  have hhblen : ((List.range 8).map
      (fun i => derivedHisto t i % 256)).length = 8 := by simp
  have hdrop : t.writeTo.drop 8 =
      (List.range 8).map (fun i => derivedHisto t i % 256) ++
      ((List.range t.nSymbols).map
        (fun i => toLEBytes (t.symbols i).length (t.symbols i).val)).flatten := by
    rw [hwt]
    exact List.drop_left' hlen8
  rw [hdrop, List.getD_append _ _ _ _ (by rw [hhblen]; omega),
    List.getD_eq_getElem _ _ (by rw [hhblen]; omega)]
  simp only [List.getElem_map, List.getElem_range]
  exact Nat.mod_eq_of_lt (by have := derivedHisto_le t i; omega)

/-- `readFrom` on the bytes `writeTo` produced reconstructs the table
field by field (on a `ValidSer` table). -/
lemma readFrom_writeTo (t : Table) (h : ValidSer t) :
    readFrom t.writeTo = some { newTable with
      suffixLim := t.suffixLim, nSymbols := t.nSymbols,
      lenHisto := fun i => if i < 8 then (t.writeTo.drop 8).getD i 0 else 0,
      symbols := readSymsFun ((List.range t.nSymbols).map
        (fun i => ((t.symbols i).length, (t.symbols i).val))) 0
        newTable.symbols } := by
  obtain ⟨hn, hsl, hsyms, hlh, hsched⟩ := h
  have hdh : ∀ l, derivedHisto t l ≤ t.nSymbols := derivedHisto_le t
  have hwt : t.writeTo =
      toLEBytes 8 (20190218 * 2 ^ 32 + t.suffixLim * 2 ^ 16 +
        t.nSymbols * 2 ^ 8 + 1) ++
      ((List.range 8).map (fun i => derivedHisto t i % 256) ++
        ((List.range t.nSymbols).map
          (fun i => toLEBytes (t.symbols i).length (t.symbols i).val)).flatten) := by
    show toLEBytes 8 _ ++ _ ++ _ = _
    rw [List.append_assoc]
  have hlen8 : (toLEBytes 8 (20190218 * 2 ^ 32 + t.suffixLim * 2 ^ 16 +
      t.nSymbols * 2 ^ 8 + 1)).length = 8 := toLEBytes_length _ _
  have hdlen : ¬t.writeTo.length < 8 := by
    rw [hwt, List.length_append, hlen8]
    omega
  have htake : t.writeTo.take 8 = toLEBytes 8 (20190218 * 2 ^ 32 +
      t.suffixLim * 2 ^ 16 + t.nSymbols * 2 ^ 8 + 1) := by
    rw [hwt]
    exact List.take_left' hlen8
  have hdrop : t.writeTo.drop 8 =
      (List.range 8).map (fun i => derivedHisto t i % 256) ++
      ((List.range t.nSymbols).map
        (fun i => toLEBytes (t.symbols i).length (t.symbols i).val)).flatten := by
    rw [hwt]
    exact List.drop_left' hlen8
  have hver : fromLEBytes (t.writeTo.take 8) = 20190218 * 2 ^ 32 +
      t.suffixLim * 2 ^ 16 + t.nSymbols * 2 ^ 8 + 1 := by
    rw [htake, fromLE_toLE]
    exact Nat.mod_eq_of_lt (by omega)
  have hvv : (20190218 * 2 ^ 32 + t.suffixLim * 2 ^ 16 +
      t.nSymbols * 2 ^ 8 + 1) / 2 ^ 32 = 20190218 := by omega
  have hsuf : (20190218 * 2 ^ 32 + t.suffixLim * 2 ^ 16 +
      t.nSymbols * 2 ^ 8 + 1) / 2 ^ 16 % 256 = t.suffixLim := by omega
  have hnsy : (20190218 * 2 ^ 32 + t.suffixLim * 2 ^ 16 +
      t.nSymbols * 2 ^ 8 + 1) / 2 ^ 8 % 256 = t.nSymbols := by omega
  have hhblen : ((List.range 8).map
      (fun i => derivedHisto t i % 256)).length = 8 := by simp
  have hblen : ¬(t.writeTo.drop 8).length < 8 := by
    rw [hdrop, List.length_append, hhblen]
    omega
  have hgetD : ∀ i, i < 8 → (t.writeTo.drop 8).getD i 0 = derivedHisto t i := by
    intro i hi
    rw [hdrop, List.getD_append _ _ _ _ (by rw [hhblen]; omega),
      List.getD_eq_getElem _ _ (by rw [hhblen]; omega)]
    simp only [List.getElem_map, List.getElem_range]
    exact Nat.mod_eq_of_lt (by have := hdh i; omega)
  have hdrop2 : (t.writeTo.drop 8).drop 8 =
      ((List.range t.nSymbols).map
        (fun i => toLEBytes (t.symbols i).length (t.symbols i).val)).flatten := by
    rw [hdrop]
    exact List.drop_left' hhblen
  have hslen2 : (((List.range 7).map (fun j =>
      List.replicate (derivedHisto t (j + 1)) (j + 2))).flatten).length +
      derivedHisto t 0 = t.nSymbols := by
    have hlc := congrArg List.length hsched
    simp only [List.length_append, List.length_replicate, List.length_map,
      List.length_range] at hlc
    omega
  have hschedeq : ((List.range 7).map (fun j =>
      List.replicate ((t.writeTo.drop 8).getD (j + 1) 0) (j + 2))).flatten =
      ((List.range 7).map (fun j =>
        List.replicate (derivedHisto t (j + 1)) (j + 2))).flatten := by
    congr 1
    refine List.map_congr_left ?_
    intro j hj
    rw [hgetD (j + 1) (by have := List.mem_range.mp hj; omega)]
  have hitems1 : (((List.range t.nSymbols).map
      (fun i => ((t.symbols i).length, (t.symbols i).val))).map
      (fun p => toLEBytes p.1 p.2)) = (List.range t.nSymbols).map
      (fun i => toLEBytes (t.symbols i).length (t.symbols i).val) := by
    rw [List.map_map]
    rfl
  have hitems2 : (((List.range t.nSymbols).map
      (fun i => ((t.symbols i).length, (t.symbols i).val))).map Prod.fst) =
      (List.range t.nSymbols).map (fun i => (t.symbols i).length) := by
    rw [List.map_map]
    rfl
  have hrs := readSymbols_spec ((List.range t.nSymbols).map
    (fun i => ((t.symbols i).length, (t.symbols i).val))) 0 newTable.symbols
    (by
      intro p hp
      obtain ⟨i, hi, rfl⟩ := List.mem_map.mp hp
      exact (hsyms i (List.mem_range.mp hi)).2.2.2)
  rw [hitems1, hitems2] at hrs
  simp only [readFrom]
  rw [if_neg hdlen]
  simp only [hver]
  rw [if_neg (not_not_intro hvv), if_neg hblen]
  simp only [hsuf, hnsy, hschedeq, hgetD 0 (by omega)]
  rw [if_neg (by omega)]
  rw [show t.nSymbols - (((List.range 7).map (fun j =>
      List.replicate (derivedHisto t (j + 1)) (j + 2))).flatten).length -
      derivedHisto t 0 = 0 from by omega]
  rw [List.replicate_zero, List.append_nil, hsched, hdrop2, hrs]

/-- The table `readFrom (writeTo t)` rebuilds encodes like `t`. -/
lemma readFrom_writeTo_encode (t : Table) (h : ValidSer t) (x : List Nat) :
    ∃ t', readFrom t.writeTo = some t' ∧ t'.Encode x = t.Encode x := by
  refine ⟨_, readFrom_writeTo t h, ?_⟩
  have hgetD := writeTo_histo_getD t h
  obtain ⟨hn, hsl, hsyms, hlh, hsched⟩ := h
  have hitemslen : ((List.range t.nSymbols).map
      (fun i => ((t.symbols i).length, (t.symbols i).val))).length =
      t.nSymbols := by simp
  refine Encode_congr t _ ?_ ?_ ?_ ?_ x
  · rfl
  · rfl
  · intro l hl
    show (if l < 8 then (t.writeTo.drop 8).getD l 0 else 0) = t.lenHisto l
    rw [if_pos hl, hgetD l hl, hlh l hl]
  · intro i hi
    show readSymsFun ((List.range t.nSymbols).map
      (fun i => ((t.symbols i).length, (t.symbols i).val))) 0
      newTable.symbols i = t.symbols i
    unfold readSymsFun
    rw [if_pos (by rw [hitemslen]; omega)]
    have hgd : ((List.range t.nSymbols).map
        (fun i => ((t.symbols i).length, (t.symbols i).val))).getD (i - 0) (0, 0) =
        ((t.symbols i).length, (t.symbols i).val) := by
      rw [List.getD_eq_getElem _ _ (by rw [hitemslen]; omega)]
      simp
    rw [hgd]
    show ({ val := (t.symbols i).val, icl := (t.symbols i).length * 2 ^ 28 +
      i * 2 ^ 16 + (8 - (t.symbols i).length) * 8 } : symbol) = t.symbols i
    rw [← (hsyms i hi).2.2.1]

end FSST

namespace FSST

set_option maxRecDepth 1000000
set_option maxHeartbeats 1000000000

/-! ## Concrete training runs (claims C1, C2, C8, C9) -/

/-- Training corpus `["ab\x00" × 6]` (18 bytes, so `makeSample` keeps it
unchanged): training learns the 3-byte symbol `"ab\x00"` and the 1-byte
symbol `"a"`. -/
def c1corpus : List (List Nat) :=
  [[97, 98, 0, 97, 98, 0, 97, 98, 0, 97, 98, 0, 97, 98, 0, 97, 98, 0]]

/-- The table trained (with the canonical candidate order) on `c1corpus`. -/
def c1table : Table := Train idOracle c1corpus

/-- Kernel evaluation of the `c1table` round trip on the input `"ab"`. -/
lemma c1_roundtrip_eval :
    (c1table.Encode [97, 98]).bind (fun enc => c1table.Decode enc) = some [97, 98, 0] := by
  rfl

/-- C1 (failing input): on the table trained on `["ab\x00"×6]`, encoding the
input `"ab"` matches the learned 3-byte symbol `"ab\x00"` across the end of
the chunk — the 8-byte load reads the zeroed terminator byte as data — so
the decoder returns `"ab\x00"`, not `"ab"`: `Decode(T, Encode(T, x)) ≠ x`. -/
theorem C1_roundtrip_failure :
    (c1table.Encode [97, 98]).bind (fun enc => c1table.Decode enc) ≠ some [97, 98] ∧
    (c1table.Encode [97, 98]).bind (fun enc => c1table.Decode enc) = some [97, 98, 0] := by
  refine ⟨?_, c1_roundtrip_eval⟩
  rw [c1_roundtrip_eval]
  decide

/-- Training corpus `["abc\x00abc\x00abc\x00abc"]` (15 bytes): in round 1
its candidate map holds candidates with equal gain and equal `val`, whose
relative heap order depends on the map enumeration order. -/
def c2corpus : List (List Nat) := [[97, 98, 99, 0, 97, 98, 99, 0, 97, 98, 99, 0, 97, 98, 99]]

/-- A candidate enumeration order that reverses the map entries in round 1
only (another possible combination of Go map iteration orders: each round
iterates a freshly built map, so any permutation can occur in any round). -/
def rev1Oracle : Nat → List qsym → List qsym := fun r l => if r = 1 then l.reverse else l

/-- Kernel evaluation of training on `c2corpus` with the canonical
candidate order. -/
lemma c2_id_bytes : (Train idOracle c2corpus).writeTo =
    [1, 3, 0, 0, 10, 20, 52, 1, 3, 0, 0, 0, 0, 0, 0, 0, 99, 98, 97] := by
  rfl

/-- Kernel evaluation of training on `c2corpus` with the round-1-reversed
candidate order. -/
lemma c2_rev1_bytes : (Train rev1Oracle c2corpus).writeTo =
    [1, 4, 0, 0, 10, 20, 52, 1, 4, 0, 0, 0, 0, 0, 0, 0, 99, 98, 97, 0] := by
  rfl

/-- C2 (failing input): `Train` reads the candidate map in Go map iteration
order, which is arbitrary; with the canonical enumeration and the round-1
reversal (both permutations of the same map contents, as recorded in the
other two conjuncts) the serialized tables differ — among the tied
candidates a different one is evicted from the full heap, and the training
result changes (here: 3 symbols versus 4 symbols). -/
theorem C2_training_order_dependent :
    (Train idOracle c2corpus).writeTo ≠ (Train rev1Oracle c2corpus).writeTo ∧
    (∀ r (l : List qsym), List.Perm (idOracle r l) l) ∧
    (∀ r (l : List qsym), List.Perm (rev1Oracle r l) l) := by
  refine ⟨?_, fun r l => List.Perm.refl l, ?_⟩
  · rw [c2_id_bytes, c2_rev1_bytes]
    decide
  · intro r l
    unfold rev1Oracle
    split
    · exact l.reverse_perm
    · exact List.Perm.refl l

/-- Training corpus `["y\x00z" × 6]`: training learns the 3-byte symbol
`"y\x00z"` (whose second byte is 0) and the 1-byte symbol `"y"`. -/
def c8corpus : List (List Nat) :=
  [[121, 0, 122, 121, 0, 122, 121, 0, 122, 121, 0, 122, 121, 0, 122, 121, 0, 122]]

/-- The table trained (with the canonical candidate order) on `c8corpus`. -/
def c8table : Table := Train idOracle c8corpus

/-- Kernel evaluation of encoding `"y"` with the residue of a prior
`"y\x00z"` encode in the scratch buffer. -/
lemma c8_residue_encode :
    ((c8table.EncodeWith (fun _ => 0) [121, 0, 122]).bind
      (fun r => (c8table.EncodeWith r.2 [121]).map Prod.fst)) = some [0] := by
  rfl

/-- Kernel evaluation of encoding `"y"` with a fresh zero scratch buffer. -/
lemma c8_fresh_encode : c8table.Encode [121] = some [1] := by
  rfl

/-- C8 (failing input): after encoding `"y\x00z"`, the scratch chunk buffer
holds `z` at index 2; encoding `"y"` next loads the word `y, 0, z, …` — the
terminator only zeroes index 1 — and matches the learned symbol `"y\x00z"`,
emitting code 0, whereas encoding `"y"` with a fresh zero buffer emits the
escape-free 1-byte code 1. The residual buffer contents change the output. -/
theorem C8_scratch_buffer_leak :
    ((c8table.EncodeWith (fun _ => 0) [121, 0, 122]).bind
      (fun r => (c8table.EncodeWith r.2 [121]).map Prod.fst)) = some [0] ∧
    c8table.Encode [121] = some [1] :=
  ⟨c8_residue_encode, c8_fresh_encode⟩

/-- A table holding 255 learned symbols (the 1-byte symbols 0–254). -/
def full255 : Table :=
  applyN (fun b acc => (acc.addSymbol (newSymbolFromBytes [b])).2) 255 newTable

/-- A table holding the single learned symbol `"abc"`. -/
def tableAbc : Table := (newTable.addSymbol (newSymbolFromBytes [97, 98, 99])).2

/-- C9 (failing input): `addSymbol` only fails when
`fsstCodeBase + nSymbols ≥ fsstCodeMax`, i.e. at `nSymbols = 256`, not at
`nSymbols = 255`: on a table with 255 learned symbols it returns `true` and
installs a 256th symbol carrying code 511 — the unassigned-sentinel code
value (`fsstCodeMask`). The hash-collision half of the claim does hold:
inserting `"abc\x00"` over the slot taken by `"abc"` returns `false` and
leaves the table unchanged. -/
theorem C9_addSymbol_capacity_off_by_one :
    full255.nSymbols = 255 ∧
    (full255.addSymbol (newSymbolFromBytes [255])).1 = true ∧
    ((full255.addSymbol (newSymbolFromBytes [255])).2).nSymbols = 256 ∧
    (((full255.addSymbol (newSymbolFromBytes [255])).2).symbols 511).code = 511 ∧
    tableAbc.addSymbol (newSymbolFromBytes [97, 98, 99, 0]) = (false, tableAbc) := by
  refine ⟨by rfl, by rfl, by rfl, by rfl, by rfl⟩

/-- C5: on a table with at most 255 learned symbols (every trained table),
`Decode` is total on arbitrary byte sequences — the decoder arrays index
only codes below 255, so no input can make it fail — and a trailing escape
code is tolerated: appending `255` to any input either leaves the output
unchanged (the decoder reaches the escape as a code with no following byte
and stops without consuming a literal) or appends the literal byte `255`
(an escape already in the input consumes it). -/
theorem C5_decode_total (t : Table) (h : t.nSymbols ≤ 255) :
    (∀ y : List Nat, (t.Decode y).isSome = true) ∧
    (∀ ys out, t.Decode ys = some out →
      t.Decode (ys ++ [fsstEscapeCode]) = some out ∨
      t.Decode (ys ++ [fsstEscapeCode]) = some (out ++ [fsstEscapeCode])) := by
  constructor
  · intro y
    simp [Table.Decode, h]
  · intro ys out hys
    simp only [Table.Decode, if_pos h, Option.some.injEq] at hys ⊢
    rcases decodeCore_append_escape
        (fun c => if c < t.nSymbols then (t.symbols c).length else 0)
        (fun c => if c < t.nSymbols then (t.symbols c).val else 0) ys with hc | hc
    · left; rw [hc, hys]
    · right; rw [hc, hys]

/-- C5 witness: the fresh table (no learned symbols) decodes the arbitrary
sequence `[3, 255]` without failing. -/
theorem C5_decode_total_witness :
    newTable.nSymbols ≤ 255 ∧ (newTable.Decode [3, 255]).isSome = true :=
  ⟨by decide, (C5_decode_total newTable (by decide)).1 [3, 255]⟩

/-- A small finalized table: code 0 is the unique-prefix 2-byte symbol
`"ab"`, code 1 the 1-byte symbol `"c"` (`suffixLim = 1`, `byteLim = 1`). -/
def c7table : Table where
  shortCodes := fun _ => 0
  byteCodes := fun _ => 0
  symbols := fun i =>
    if i = 0 then { val := 25185, icl := 2 * 2 ^ 28 + 48 }
    else if i = 1 then { val := 99, icl := 2 ^ 28 + 2 ^ 16 + 56 }
    else { val := 0, icl := 0 }
  hashTab := fun _ => { val := 0, icl := 0 }
  nSymbols := 2
  suffixLim := 1
  lenHisto := fun _ => 0

/-- A 3-byte chunk buffer holding `"ab" ++ "\x00"`. -/
def c7buf : Nat → Nat := fun i => if i = 0 then 97 else if i = 1 then 98 else 0

/-- C7: on a finalized table with rebuilt indices (`ValidFin` is the layout
`finalize` establishes: codes below `suffixLim` are 2-byte symbols with an
unshared prefix, codes from `byteLim` up are the 1-byte symbols, and every
symbol carries its canonical packed `icl`), `encodeChunk` emits exactly the
same byte sequence for every combination of the `noSuffixOpt` and
`avoidBranch` strategy flags: the fast 2-byte path, the hash-probe path and
both escape-emission styles are output-equivalent. -/
theorem C7_variant_equivalence (t : Table) (bl : Nat) (h : ValidFin t bl)
    (ns av ns' av' : Bool) (buf : Nat → Nat) (endp fuel pos : Nat)
    (dst : List Nat) :
    encodeChunkGo t.rebuildIndices.shortCodes t.rebuildIndices.hashTab
      t.suffixLim bl ns av buf endp fuel pos dst =
    encodeChunkGo t.rebuildIndices.shortCodes t.rebuildIndices.hashTab
      t.suffixLim bl ns' av' buf endp fuel pos dst := by
  induction fuel generalizing pos dst with
  | zero => rfl
  | succ m ih =>
    by_cases hpos : pos < endp
    · obtain ⟨a, e, hstep⟩ := encodeChunk_step_uniform t bl h buf endp pos hpos
      rw [hstep ns av m dst, hstep ns' av' m dst]
      exact ih (pos + a) (dst ++ e)
    · simp only [encodeChunkGo, if_neg hpos]

/-- C4: on a table with at most 255 learned symbols (every trained table),
`Encode` always succeeds, the output is at most twice as long as the input,
and the bound is attained only when the output is the all-escape encoding —
every input byte emitted as the two-byte escape sequence `255, b`. -/
theorem C4_encode_size_bound (t : Table) (hn : t.nSymbols ≤ 255)
    (x : List Nat) :
    ∃ out, t.Encode x = some out ∧ out.length ≤ 2 * x.length ∧
      (out.length = 2 * x.length → out = escapeAll x) := by
  obtain ⟨out, bufout, heq, hle, heqc⟩ := encodeChunks_bound
    t.rebuildIndices.shortCodes t.rebuildIndices.hashTab
    t.rebuildIndices.suffixLim
    ((t.nSymbols % 256 + 256 - t.lenHisto 0 % 256) % 256)
    (chooseVariant t.rebuildIndices).1 (chooseVariant t.rebuildIndices).2
    (rebuild_sc_div t hn) (rebuild_sc_escape t hn) (rebuild_ht_len t)
    x.length x (fun _ => 0) [] le_rfl
  refine ⟨out, ?_, by simpa using hle,
    fun hx => by simpa using heqc (by simpa using hx)⟩
  show (t.EncodeWith (fun _ => 0) x).map Prod.fst = some out
  have hE : t.EncodeWith (fun _ => 0) x = encodeChunksGo
      t.rebuildIndices.shortCodes t.rebuildIndices.hashTab
      t.rebuildIndices.suffixLim
      ((t.nSymbols % 256 + 256 - t.lenHisto 0 % 256) % 256)
      (chooseVariant t.rebuildIndices).1 (chooseVariant t.rebuildIndices).2
      x.length (fun _ => 0) [] x := rfl
  rw [hE, heq]
  rfl

/-- C4 witness: the concrete finalized table `c7table` encodes the single
byte `"c"` within the bound. -/
theorem C4_encode_size_bound_witness :
    c7table.nSymbols ≤ 255 ∧
    ∃ out, c7table.Encode [99] = some out ∧ out.length ≤ 2 * [99].length ∧
      (out.length = 2 * [99].length → out = escapeAll [99]) :=
  ⟨by decide, C4_encode_size_bound c7table (by decide) [99]⟩

/-- `c7table` with its histogram filled in consistently with its symbols
(one 1-byte and one 2-byte symbol). -/
def c3table : Table :=
  { c7table with lenHisto := fun l => if l = 0 then 1 else if l = 1 then 1 else 0 }

/-- C3: serializing a table with `WriteTo` and reading the bytes back with
`ReadFrom` yields a table that encodes every input to exactly the same
byte sequence (`ValidSer` is the serializable shape `finalize` leaves:
bounded counts, canonical per-code metadata, histogram matching the
symbols, and symbols stored in the schedule order `ReadFrom` rebuilds). -/
theorem C3_roundtrip_preserves_encode (t : Table) (h : ValidSer t)
    (x : List Nat) :
    ∃ t', readFrom t.writeTo = some t' ∧ t'.Encode x = t.Encode x :=
  readFrom_writeTo_encode t h x

/-- C3 witness: the concrete table `c3table` survives a serialization
round-trip with its encoding behaviour intact. -/
theorem C3_roundtrip_preserves_encode_witness :
    ValidSer c3table ∧
    ∃ t', readFrom c3table.writeTo = some t' ∧
      t'.Encode [97, 98, 99] = c3table.Encode [97, 98, 99] :=
  ⟨by decide, C3_roundtrip_preserves_encode c3table (by decide) [97, 98, 99]⟩

/-- C7 witness: on the concrete finalized table `c7table` the strategy
variants `(noSuffixOpt, avoidBranch) = (true, false)` and `(false, true)`
encode the 3-byte chunk `"ab\x00"` identically. -/
theorem C7_variant_equivalence_witness :
    ValidFin c7table 1 ∧
    encodeChunkGo c7table.rebuildIndices.shortCodes
      c7table.rebuildIndices.hashTab c7table.suffixLim 1 true false c7buf
      3 3 0 [] =
    encodeChunkGo c7table.rebuildIndices.shortCodes
      c7table.rebuildIndices.hashTab c7table.suffixLim 1 false true c7buf
      3 3 0 [] :=
  ⟨by decide, C7_variant_equivalence c7table 1 (by decide) true false false true
    c7buf 3 3 0 []⟩

end FSST
